import Mathlib

/-
Verification of the raster analysis and geo-attribution core of the
flood-depth service.  JavaScript numbers are modelled as extended
rationals (finite values exact, plus NaN and the two infinities), so the
comparison and arithmetic semantics of the guards in the source are
captured; float rounding is not modelled.  Geometry (ray casting, the
affine world-file arithmetic, pixel mapping) is carried out over plain
rationals, matching the source expressions term for term.
-/

namespace FloodCore

/-- Model of a JavaScript number: NaN, the infinities, or an exact finite
value. -/
inductive JsNum where
  | nan
  | inf
  | ninf
  | fin (q : ℚ)
deriving DecidableEq, Repr

/-- JavaScript strict equality on numbers: NaN compares unequal to
everything, including itself. -/
def jeq : JsNum → JsNum → Bool
  | .fin a, .fin b => decide (a = b)
  | .inf, .inf => true
  | .ninf, .ninf => true
  | _, _ => false

/-- JavaScript strict less-than: any comparison involving NaN is false. -/
def jlt : JsNum → JsNum → Bool
  | .nan, _ => false
  | _, .nan => false
  | .ninf, .ninf => false
  | .ninf, _ => true
  | _, .ninf => false
  | .inf, _ => false
  | .fin _, .inf => true
  | .fin a, .fin b => decide (a < b)

/-- JavaScript less-or-equal, false on NaN operands. -/
def jle (a b : JsNum) : Bool := jlt a b || jeq a b

/-- JavaScript greater-than. -/
def jgt (a b : JsNum) : Bool := jlt b a

/-- JavaScript greater-or-equal, false on NaN operands. -/
def jge (a b : JsNum) : Bool := jle b a

/-- JavaScript addition on the number model. -/
def jadd : JsNum → JsNum → JsNum
  | .nan, _ => .nan
  | _, .nan => .nan
  | .inf, .ninf => .nan
  | .ninf, .inf => .nan
  | .inf, _ => .inf
  | _, .inf => .inf
  | .ninf, _ => .ninf
  | _, .ninf => .ninf
  | .fin a, .fin b => .fin (a + b)

/-- JavaScript subtraction on the number model. -/
def jsub : JsNum → JsNum → JsNum
  | .nan, _ => .nan
  | _, .nan => .nan
  | .inf, .inf => .nan
  | .ninf, .ninf => .nan
  | .inf, _ => .inf
  | .ninf, _ => .ninf
  | .fin _, .inf => .ninf
  | .fin _, .ninf => .inf
  | .fin a, .fin b => .fin (a - b)

/-- JavaScript multiplication on the number model (the signed-zero
distinction is not modelled; infinity times zero gives NaN). -/
def jmul : JsNum → JsNum → JsNum
  | .nan, _ => .nan
  | _, .nan => .nan
  | .inf, .fin b => if b = 0 then .nan else if b < 0 then .ninf else .inf
  | .ninf, .fin b => if b = 0 then .nan else if b < 0 then .inf else .ninf
  | .fin a, .inf => if a = 0 then .nan else if a < 0 then .ninf else .inf
  | .fin a, .ninf => if a = 0 then .nan else if a < 0 then .inf else .ninf
  | .inf, .inf => .inf
  | .inf, .ninf => .ninf
  | .ninf, .inf => .ninf
  | .ninf, .ninf => .inf
  | .fin a, .fin b => .fin (a * b)

/-- JavaScript division on the number model (the signed-zero distinction is
not modelled; a nonzero finite value divided by zero gives the signed
infinity, zero by zero gives NaN). -/
def jdiv : JsNum → JsNum → JsNum
  | .nan, _ => .nan
  | _, .nan => .nan
  | .inf, .inf => .nan
  | .inf, .ninf => .nan
  | .ninf, .inf => .nan
  | .ninf, .ninf => .nan
  | .inf, .fin b => if b < 0 then .ninf else .inf
  | .ninf, .fin b => if b < 0 then .inf else .ninf
  | .fin _, .inf => .fin 0
  | .fin _, .ninf => .fin 0
  | .fin a, .fin b =>
      if b = 0 then (if a = 0 then .nan else if a < 0 then .ninf else .inf)
      else .fin (a / b)

/-- Math.abs on the number model. -/
def jabs : JsNum → JsNum
  | .nan => .nan
  | .inf => .inf
  | .ninf => .inf
  | .fin a => .fin |a|

/-- Math.min on the number model (NaN propagates). -/
def jmin : JsNum → JsNum → JsNum
  | .nan, _ => .nan
  | _, .nan => .nan
  | .ninf, _ => .ninf
  | _, .ninf => .ninf
  | .inf, b => b
  | a, .inf => a
  | .fin a, .fin b => .fin (min a b)

/-- Math.max on the number model (NaN propagates). -/
def jmax : JsNum → JsNum → JsNum
  | .nan, _ => .nan
  | _, .nan => .nan
  | .inf, _ => .inf
  | _, .inf => .inf
  | .ninf, b => b
  | a, .ninf => a
  | .fin a, .fin b => .fin (max a b)

/-- Number.isFinite. -/
def jsFinite : JsNum → Bool
  | .fin _ => true
  | _ => false

/-- Left fold of JavaScript addition starting from a seed, matching the
accumulation order of the source loops. -/
def jsumFrom (s : JsNum) (l : List JsNum) : JsNum := l.foldl jadd s

/-- Sum of a list of values in loop order, starting from zero. -/
def jsumList (l : List JsNum) : JsNum := jsumFrom (.fin 0) l

/-- Geographic bounds record (north, south, east, west in degrees). -/
structure GeoBounds where
  north : ℚ
  south : ℚ
  east : ℚ
  west : ℚ
deriving DecidableEq, Repr

/-- Even-odd ray casting, translated from the isPointInPolygon helper of the
batch attribution service.  A point and the polygon vertices are (lat, lon)
pairs; the source reads x from lon and y from lat.  The rational division is
total (dividing by zero yields zero), which agrees with the source because
the quotient is only consulted when the first conjunct already guarantees a
nonzero denominator. -/
def isPointInPolygon (pt : ℚ × ℚ) (poly : List (ℚ × ℚ)) : Bool :=
  let x := pt.2
  let y := pt.1
  let n := poly.length
  (List.range n).foldl
    (fun inside i =>
      let j := if i = 0 then n - 1 else i - 1
      let vi := poly.getD i (0, 0)
      let vj := poly.getD j (0, 0)
      let xi := vi.2
      let yi := vi.1
      let xj := vj.2
      let yj := vj.1
      let intersect :=
        (decide (yi > y) != decide (yj > y)) &&
          decide (x < (xj - xi) * (y - yi) / (yj - yi) + xi)
      if intersect then !inside else inside)
    false

/-- The per-pixel multi-ring combination of the full-grid scan: the source
walks the outer ways and flips the inside flag once per containing way. -/
def scanInside (ways : List (List (ℚ × ℚ))) (pt : ℚ × ℚ) : Bool :=
  ways.foldl
    (fun inside wy =>
      if isPointInPolygon pt wy then (if inside then false else true) else inside)
    false

/-- Geographic center of pixel (x, y), as computed inside the full-grid scan
loops: lon from west across the width, lat down from north across the
height, with the half-pixel offset. -/
def pixelCenter (b : GeoBounds) (w h x y : ℕ) : ℚ × ℚ :=
  (b.north - ((y : ℚ) + 1 / 2) * (b.north - b.south) / (h : ℚ),
   b.west + ((x : ℚ) + 1 / 2) * (b.east - b.west) / (w : ℚ))

/-- Depth guard of the full-grid scan: the source adds the depth exactly when
the condition depth lower-or-equal zero, or depth strictly equal to the
sentinel, evaluates to false. -/
def scanGuard (depth nd : JsNum) : Bool :=
  !(jle depth (.fin 0) || jeq depth nd)

/-- Pixels of the grid in the order the full-grid scan visits them: x in the
outer loop, y in the inner loop. -/
def scanPixelList (w h : ℕ) : List (ℕ × ℕ) :=
  ((List.range w).map (fun x => (List.range h).map (fun y => (x, y)))).flatten

/-- One ward step of the full-grid scan accumulation over a list of pixels:
the accumulator carries the running depth sum and the count of pixels
classified inside.  The count increments for every inside pixel; the sum
adds only those passing the depth guard, mirroring the source loop body. -/
def wardScanAcc (g : ℕ → ℕ → JsNum) (b : GeoBounds) (w h : ℕ) (nd : JsNum)
    (ways : List (List (ℚ × ℚ))) (l : List (ℕ × ℕ)) (acc : JsNum × ℕ) :
    JsNum × ℕ :=
  l.foldl
    (fun acc p =>
      let depth := g p.2 p.1
      if scanInside ways (pixelCenter b w h p.1 p.2) then
        (if scanGuard depth nd then jadd acc.1 depth else acc.1, acc.2 + 1)
      else acc)
    acc

/-- Full-grid scan for one ward: depth sum and attributed pixel count. -/
def wardScan (g : ℕ → ℕ → JsNum) (b : GeoBounds) (w h : ℕ) (nd : JsNum)
    (ways : List (List (ℚ × ℚ))) : JsNum × ℕ :=
  wardScanAcc g b w h nd ways (scanPixelList w h) (.fin 0, 0)

/-- Value the full-grid scan reports for a ward: the accumulated sum divided
by the count, with the count replaced by one when it is zero (the source
divides by counted pixels or-else one). -/
def wardScanReport (g : ℕ → ℕ → JsNum) (b : GeoBounds) (w h : ℕ) (nd : JsNum)
    (ways : List (List (ℚ × ℚ))) : JsNum :=
  let sc := wardScan g b w h nd ways
  jdiv sc.1 (.fin (if sc.2 = 0 then 1 else (sc.2 : ℚ)))

/-- Pixel coordinates of a geographic point, as in the latLonToPixel helper
of the flood-fill attribution service: floor of the linear interpolation
across the bounds.  Coordinates are integers, matching the source where a
seed may land outside the image and is then discarded by the range check. -/
def latLonToPixel (b : GeoBounds) (w h : ℕ) (lat lon : ℚ) : ℤ × ℤ :=
  (Int.floor ((lon - b.west) / (b.east - b.west) * (w : ℚ)),
   Int.floor ((b.north - lat) / (b.north - b.south) * (h : ℚ)))

/-- Validity test of the flood-fill service: the depth is not strictly equal
to the sentinel and is strictly positive. -/
def ffValid (g : ℤ × ℤ → JsNum) (nd : JsNum) (p : ℤ × ℤ) : Bool :=
  !jeq (g p) nd && jgt (g p) (.fin 0)

/-- Image range check used by both the seeding loop and the neighbor loop. -/
def inGridB (w h : ℕ) (p : ℤ × ℤ) : Bool :=
  decide (0 ≤ p.1) && decide (p.1 < (w : ℤ)) &&
    decide (0 ≤ p.2) && decide (p.2 < (h : ℤ))

/-- Point update of the claim grid. -/
def setId (f : ℤ × ℤ → ℕ) (p : ℤ × ℤ) (wid : ℕ) : ℤ × ℤ → ℕ :=
  fun q => if q = p then wid else f q

/-- One step of the seeding loop of the flood-fill service: project the
boundary vertex to a pixel; inside the image, an unclaimed pixel with valid
depth is claimed for the ward and enqueued. -/
def seedStep (g : ℤ × ℤ → JsNum) (nd : JsNum) (b : GeoBounds) (w h : ℕ)
    (wid : ℕ) (acc : ((ℤ × ℤ) → ℕ) × List (ℤ × ℤ)) (c : ℚ × ℚ) :
    ((ℤ × ℤ) → ℕ) × List (ℤ × ℤ) :=
  let p := latLonToPixel b w h c.1 c.2
  if inGridB w h p then
    if acc.1 p ≠ 0 then acc
    else if ffValid g nd p then (setId acc.1 p wid, acc.2 ++ [p])
    else acc
  else acc

/-- Seeding loop of the flood-fill service over all boundary vertices. -/
def seedWard (g : ℤ × ℤ → JsNum) (nd : JsNum) (b : GeoBounds) (w h : ℕ)
    (wid : ℕ) (coords : List (ℚ × ℚ)) (idM0 : ℤ × ℤ → ℕ) :
    ((ℤ × ℤ) → ℕ) × List (ℤ × ℤ) :=
  coords.foldl (seedStep g nd b w h wid) (idM0, [])

/-- The four 4-connected neighbor offsets, in source order. -/
def ffDirs : List (ℤ × ℤ) := [(-1, 0), (1, 0), (0, -1), (0, 1)]

/-- Neighbor relaxation of the breadth-first loop: inside the image, a valid
unclaimed neighbor is claimed and appended to the pending pushes. -/
def relax (g : ℤ × ℤ → JsNum) (nd : JsNum) (w h : ℕ) (wid : ℕ) (p : ℤ × ℤ)
    (acc : ((ℤ × ℤ) → ℕ) × List (ℤ × ℤ)) (d : ℤ × ℤ) :
    ((ℤ × ℤ) → ℕ) × List (ℤ × ℤ) :=
  let n := (p.1 + d.1, p.2 + d.2)
  if inGridB w h n then
    if ffValid g nd n && decide (acc.1 n = 0) then
      (setId acc.1 n wid, acc.2 ++ [n])
    else acc
  else acc

/-- State of the breadth-first region growth.  The pops field is a ghost
trace recording the order in which pixels are dequeued and their depths
added to the running total; it does not influence the computation. -/
structure FFState where
  idM : ℤ × ℤ → ℕ
  queue : List (ℤ × ℤ)
  total : JsNum
  pops : List (ℤ × ℤ)

/-- Number of unclaimed cells inside the image: the termination measure base
of the breadth-first loop. -/
def zeroCount (w h : ℕ) (f : ℤ × ℤ → ℕ) : ℕ :=
  ((Finset.Icc (0 : ℤ) ((w : ℤ) - 1) ×ˢ Finset.Icc (0 : ℤ) ((h : ℤ) - 1)).filter
    (fun p => f p = 0)).card

/-- The breadth-first while-loop of the flood-fill service, run on explicit
fuel: dequeue a pixel from the front, add its depth to the total, relax the
four neighbors in order, appending new pixels at the back.  Fuel exhaustion
with a nonempty queue yields none; the termination theorem shows a
sufficient fuel budget is computable from the state. -/
def bfsRun (g : ℤ × ℤ → JsNum) (nd : JsNum) (w h : ℕ) (wid : ℕ) :
    ℕ → FFState → Option FFState
  | 0, s => match s.queue with | [] => some s | _ => none
  | fuel + 1, s =>
      match s.queue with
      | [] => some s
      | p :: rest =>
          let r := ffDirs.foldl (relax g nd w h wid p) (s.idM, [])
          bfsRun g nd w h wid fuel
            { idM := r.1, queue := rest ++ r.2,
              total := jadd s.total (g p), pops := s.pops ++ [p] }

/-- A ward input to the flood-fill service: its id and the geometry of the
first outer way of its boundary. -/
structure FFWard where
  wid : ℕ
  coords : List (ℚ × ℚ)

/-- Per-ward record produced by the flood-fill run: the id, the reported
depth total, and the ghost trace of pixels whose depths were accumulated. -/
structure FFResult where
  wid : ℕ
  total : JsNum
  pops : List (ℤ × ℤ)
deriving DecidableEq, Repr

/-- One ward of the flood-fill service: seed from the boundary vertices,
then grow regions breadth-first.  The loop is run with the fuel budget five
times the unclaimed-cell count plus the queue length, which the termination
theorem proves sufficient. -/
def processWard (g : ℤ × ℤ → JsNum) (nd : JsNum) (b : GeoBounds) (w h : ℕ)
    (ward : FFWard) (idM0 : ℤ × ℤ → ℕ) :
    Option (((ℤ × ℤ) → ℕ) × FFResult) :=
  let sq := seedWard g nd b w h ward.wid ward.coords idM0
  match bfsRun g nd w h ward.wid (5 * zeroCount w h sq.1 + sq.2.length)
      { idM := sq.1, queue := sq.2, total := .fin 0, pops := [] } with
  | some s => some (s.idM, ⟨ward.wid, s.total, s.pops⟩)
  | none => none

/-- The whole flood-fill attribution run: wards processed in input order,
sharing one claim grid that starts all zero. -/
def processFF (g : ℤ × ℤ → JsNum) (nd : JsNum) (b : GeoBounds) (w h : ℕ)
    (wards : List FFWard) : Option (List FFResult) :=
  (wards.foldl
    (fun (acc : Option (((ℤ × ℤ) → ℕ) × List FFResult)) ward =>
      match acc with
      | none => none
      | some ir =>
          match processWard g nd b w h ward ir.1 with
          | some r => some (r.1, ir.2 ++ [r.2])
          | none => none)
    (some (fun _ => 0, []))).map (fun ir => ir.2)

/-- Closeness-to-sentinel test shared by the raster statistics paths: a
sentinel is configured and the absolute difference to it is below the
epsilon of one ten-thousandth. -/
def nearNoData (nd : Option JsNum) (v : JsNum) : Bool :=
  match nd with
  | some n => jlt (jabs (jsub v n)) (.fin (1 / 10000))
  | none => false

/-- Validity filter of the statistics paths: not close to the sentinel and
finite.  The source also skips undefined and null entries, which cannot
occur for in-range reads of a typed float array and are therefore not
modelled for list elements; out-of-range reads are modelled as none where
they can occur. -/
def statsValid (nd : Option JsNum) (v : JsNum) : Bool :=
  !nearNoData nd v && jsFinite v

/-- Validity filter of the min-max loop of getTifStats, which additionally
skips exact-zero cells. -/
def tifStatsValid (nd : Option JsNum) (v : JsNum) : Bool :=
  statsValid nd v && !jeq v (.fin 0)

/-- The min-max fold of the raster loaders: accumulators start at positive
and negative infinity and move through Math.min and Math.max. -/
def rangeFold (vals : List JsNum) : JsNum × JsNum :=
  vals.foldl (fun mm v => (jmin mm.1 v, jmax mm.2 v)) (.inf, .ninf)

/-- Value range computed by readFloodDepthData: fold min-max over the cells
passing the statistics filter (zero cells included), then default an
untouched minimum to zero and an untouched maximum to five. -/
def readFloodRange (nd : Option JsNum) (data : List JsNum) : JsNum × JsNum :=
  let mm := rangeFold (data.filter (statsValid nd))
  (if jeq mm.1 .inf then .fin 0 else mm.1,
   if jeq mm.2 .ninf then .fin 5 else mm.2)

/-- Value range computed by getTifStats: as readFloodRange but with
exact-zero cells additionally excluded from the fold. -/
def tifStatsRange (nd : Option JsNum) (data : List JsNum) : JsNum × JsNum :=
  let mm := rangeFold (data.filter (tifStatsValid nd))
  (if jeq mm.1 .inf then .fin 0 else mm.1,
   if jeq mm.2 .ninf then .fin 5 else mm.2)

/-- Valid values collected by getFloodDepthStats over the whole raster. -/
def statsValidValues (nd : Option JsNum) (data : List JsNum) : List JsNum :=
  data.filter (statsValid nd)

/-- Average depth reported by getFloodDepthStats: the sum of the valid
values divided by their count, with no guard against an empty collection. -/
def floodStatsAverage (nd : Option JsNum) (data : List JsNum) : JsNum :=
  jdiv (jsumList (statsValidValues nd data))
    (.fin ((statsValidValues nd data).length : ℚ))

/-- Bucket percentage reported by getFloodDepthStats for a bucket count:
count over total valid, times one hundred. -/
def statsPercentage (count totalValid : ℕ) : JsNum :=
  jmul (jdiv (.fin (count : ℚ)) (.fin (totalValid : ℚ))) (.fin 100)

/-- Integer list from a to b exclusive, empty when b is not above a: the
iteration space of the clamped region loops. -/
def intRangeList (a b : ℤ) : List ℤ :=
  (List.range (b - a).toNat).map (fun i => a + (i : ℤ))

/-- Pixel rectangle of a region query, translated from getRegionFloodDepth:
floor and ceil of the interpolated query edges, then clamped to the image,
with min and max untangling a possibly inverted interval. -/
def regionRect (tif : GeoBounds) (q : GeoBounds) (w h : ℕ) : ℤ × ℤ × ℤ × ℤ :=
  let latRange := tif.north - tif.south
  let lngRange := tif.east - tif.west
  let pixelNorth := Int.floor ((tif.north - q.north) / latRange * (h : ℚ))
  let pixelSouth := Int.ceil ((tif.north - q.south) / latRange * (h : ℚ))
  let pixelWest := Int.floor ((q.west - tif.west) / lngRange * (w : ℚ))
  let pixelEast := Int.ceil ((q.east - tif.west) / lngRange * (w : ℚ))
  let startY := max 0 (min pixelNorth pixelSouth)
  let endY := min (h : ℤ) (max pixelNorth pixelSouth)
  let startX := max 0 (min pixelWest pixelEast)
  let endX := min (w : ℤ) (max pixelWest pixelEast)
  (startX, endX, startY, endY)

/-- Raster read at a row-major index; indices past the end of the data give
none, matching an undefined typed-array read. -/
def dataAt (data : List JsNum) (idx : ℤ) : Option JsNum :=
  if 0 ≤ idx then data.get? idx.toNat else none

/-- Region scan of getRegionFloodDepth: walk the clamped rectangle row by
row, count every visited pixel, and collect the values passing the validity
filter in visit order. -/
def regionScan (data : List JsNum) (nd : Option JsNum) (tif q : GeoBounds)
    (w h : ℕ) : List JsNum × ℕ :=
  let r := regionRect tif q w h
  (intRangeList r.2.2.1 r.2.2.2).foldl
    (fun acc y =>
      (intRangeList r.1 r.2.1).foldl
        (fun acc x =>
          let acc' := (acc.1, acc.2 + 1)
          match dataAt data (y * (w : ℤ) + x) with
          | none => acc'
          | some v => if statsValid nd v then (acc'.1 ++ [v], acc'.2) else acc')
        acc)
    ([], 0)

/-- The five depth-distribution bucket counts over the collected region
values, in the order no-flood, shallow, moderate, deep, very deep. -/
def bucketCounts (vals : List JsNum) : ℕ × ℕ × ℕ × ℕ × ℕ :=
  ((vals.filter (fun v => jeq v (.fin 0))).length,
   (vals.filter (fun v => jgt v (.fin 0) && jle v (.fin (1 / 2)))).length,
   (vals.filter (fun v => jgt v (.fin (1 / 2)) && jle v (.fin 1))).length,
   (vals.filter (fun v => jgt v (.fin 1) && jle v (.fin 2))).length,
   (vals.filter (fun v => jgt v (.fin 2))).length)

/-- Sum of the five bucket counts. -/
def bucketSum (vals : List JsNum) : ℕ :=
  let bc := bucketCounts vals
  bc.1 + bc.2.1 + bc.2.2.1 + bc.2.2.2.1 + bc.2.2.2.2

/-- Parsed world-file record; each field holds the parseFloat result of the
corresponding line, so a non-numeric line is represented by NaN. -/
structure TfwData where
  pixelSizeX : JsNum
  rotationY : JsNum
  rotationX : JsNum
  pixelSizeY : JsNum
  upperLeftX : JsNum
  upperLeftY : JsNum
deriving DecidableEq, Repr

/-- World-file parser, translated from parseTfwFile: a file with fewer than
six lines is rejected (none models the thrown error); otherwise the first
six parseFloat results are packed in order, with no numeric validation.
A line is modelled by its parseFloat value. -/
def parseTfw (lines : List JsNum) : Option TfwData :=
  if lines.length < 6 then none
  else some
    { pixelSizeX := lines.getD 0 .nan, rotationY := lines.getD 1 .nan,
      rotationX := lines.getD 2 .nan, pixelSizeY := lines.getD 3 .nan,
      upperLeftX := lines.getD 4 .nan, upperLeftY := lines.getD 5 .nan }

/-- Numeric world-file parameters for the bounds computation. -/
structure TfwQ where
  pixelSizeX : ℚ
  rotationY : ℚ
  rotationX : ℚ
  pixelSizeY : ℚ
  upperLeftX : ℚ
  upperLeftY : ℚ

/-- Bounds computation of calculateBoundsFromTfw over exact rationals, with
the proj4 forward reprojection abstracted as a function from projected
(x, y) to geographic (lon, lat): shift the pixel-center origin to the outer
edges, step to the opposite corner, reproject the two corners, and take the
componentwise max and min. -/
def calcBoundsCore (t : TfwQ) (iw ih : ℕ) (T : ℚ × ℚ → ℚ × ℚ) : GeoBounds :=
  let utmWest := t.upperLeftX - t.pixelSizeX / 2
  let utmNorth := t.upperLeftY - t.pixelSizeY / 2
  let utmEast := utmWest + (iw : ℚ) * t.pixelSizeX
  let utmSouth := utmNorth + (ih : ℚ) * t.pixelSizeY
  let c1 := T (utmWest, utmNorth)
  let c2 := T (utmEast, utmSouth)
  { north := max c1.2 c2.2, south := min c1.2 c2.2,
    east := max c1.1 c2.1, west := min c1.1 c2.1 }

/-- The transparency cascade of createFloodDepthImage for one pixel: a
missing value, a value close to the sentinel, a non-finite value, and an
exact zero are painted fully transparent, in that order; any other value
takes the color ramp at alpha one hundred eighty.  The chroma ramp is
abstracted as a function to RGB triples. -/
def heatPixel (v : Option JsNum) (nd : Option JsNum)
    (ramp : JsNum → ℕ × ℕ × ℕ) : ℕ × ℕ × ℕ × ℕ :=
  match v with
  | none => (0, 0, 0, 0)
  | some val =>
      if nearNoData nd val then (0, 0, 0, 0)
      else if !jsFinite val then (0, 0, 0, 0)
      else if jeq val (.fin 0) then (0, 0, 0, 0)
      else
        let c := ramp val
        (c.1, c.2.1, c.2.2, 180)

/-! Closed forms for the full-grid scan accumulation. -/

lemma jsumFrom_cons (s d : JsNum) (ds : List JsNum) :
    jsumFrom s (d :: ds) = jsumFrom (jadd s d) ds := rfl

lemma wardScanAcc_closed (g : ℕ → ℕ → JsNum) (b : GeoBounds) (w h : ℕ)
    (nd : JsNum) (ways : List (List (ℚ × ℚ))) :
    ∀ (l : List (ℕ × ℕ)) (s : JsNum) (c : ℕ),
      wardScanAcc g b w h nd ways l (s, c) =
        (jsumFrom s ((l.filter (fun p =>
            scanInside ways (pixelCenter b w h p.1 p.2) &&
              scanGuard (g p.2 p.1) nd)).map (fun p => g p.2 p.1)),
         c + (l.filter
              (fun p => scanInside ways (pixelCenter b w h p.1 p.2))).length) := by
  intro l
  induction l with
  | nil => intro s c; simp [wardScanAcc, jsumFrom]
  | cons p t ih =>
      intro s c
      have hstep : wardScanAcc g b w h nd ways (p :: t) (s, c) =
          wardScanAcc g b w h nd ways t
            (if scanInside ways (pixelCenter b w h p.1 p.2) then
              (if scanGuard (g p.2 p.1) nd then jadd s (g p.2 p.1) else s, c + 1)
            else (s, c)) := rfl
      rw [hstep]
      cases hin : scanInside ways (pixelCenter b w h p.1 p.2) with
      | false =>
          simp only [Bool.false_eq_true, if_false]
          rw [ih]
          simp [List.filter_cons, hin]
      | true =>
          simp only [if_true]
          cases hg : scanGuard (g p.2 p.1) nd with
          | false =>
              simp only [Bool.false_eq_true, if_false]
              rw [ih]
              simp [List.filter_cons, hin, hg]
              omega
          | true =>
              simp only [if_true]
              rw [ih]
              simp [List.filter_cons, hin, hg, jsumFrom_cons]
              omega

/-- The full-grid scan for a ward, in closed form: the count is the number
of scan-order pixels classified inside, the sum accumulates the depths of
the inside pixels that also pass the depth guard. -/
lemma wardScan_closed (g : ℕ → ℕ → JsNum) (b : GeoBounds) (w h : ℕ)
    (nd : JsNum) (ways : List (List (ℚ × ℚ))) :
    wardScan g b w h nd ways =
      (jsumList (((scanPixelList w h).filter (fun p =>
          scanInside ways (pixelCenter b w h p.1 p.2) &&
            scanGuard (g p.2 p.1) nd)).map (fun p => g p.2 p.1)),
       ((scanPixelList w h).filter
          (fun p => scanInside ways (pixelCenter b w h p.1 p.2))).length) := by
  unfold wardScan jsumList
  rw [wardScanAcc_closed]
  simp

/-! Partition of the nonnegative values by the five depth buckets. -/

lemma bucket_flags (v : JsNum) :
    ((if jeq v (.fin 0) then 1 else 0) +
     (if jgt v (.fin 0) && jle v (.fin (1 / 2)) then 1 else 0) +
     (if jgt v (.fin (1 / 2)) && jle v (.fin 1) then 1 else 0) +
     (if jgt v (.fin 1) && jle v (.fin 2) then 1 else 0) +
     (if jgt v (.fin 2) then 1 else 0) : ℕ) =
      (if jge v (.fin 0) then 1 else 0) := by
  cases v with
  | nan => simp [jeq, jgt, jle, jge, jlt]
  | inf => simp [jeq, jgt, jle, jge, jlt]
  | ninf => simp [jeq, jgt, jle, jge, jlt]
  | fin q =>
      simp only [jeq, jgt, jle, jge, jlt, Bool.or_eq_true, Bool.and_eq_true,
        decide_eq_true_eq]
      rcases lt_trichotomy q 0 with hq | hq | hq
      · rw [if_neg (by intro hc; linarith), if_neg (by rintro ⟨hc, _⟩; linarith),
          if_neg (by rintro ⟨hc, _⟩; linarith), if_neg (by rintro ⟨hc, _⟩; linarith),
          if_neg (by intro hc; linarith), if_neg (by rintro (hc | hc) <;> linarith)]
      · subst hq; norm_num
      · rcases le_or_lt q (1 / 2) with hs | hs
        · rw [if_neg (by intro hc; linarith), if_pos ⟨hq, lt_or_eq_of_le hs⟩,
            if_neg (by rintro ⟨hc, _⟩; linarith), if_neg (by rintro ⟨hc, _⟩; linarith),
            if_neg (by intro hc; linarith), if_pos (Or.inl hq)]
        · rcases le_or_lt q 1 with hm | hm
          · rw [if_neg (by intro hc; linarith), if_neg (by rintro ⟨_, hc | hc⟩ <;> linarith),
              if_pos ⟨hs, lt_or_eq_of_le hm⟩, if_neg (by rintro ⟨hc, _⟩; linarith),
              if_neg (by intro hc; linarith), if_pos (Or.inl hq)]
          · rcases le_or_lt q 2 with hd | hd
            · rw [if_neg (by intro hc; linarith), if_neg (by rintro ⟨_, hc | hc⟩ <;> linarith),
                if_neg (by rintro ⟨_, hc | hc⟩ <;> linarith), if_pos ⟨hm, lt_or_eq_of_le hd⟩,
                if_neg (by intro hc; linarith), if_pos (Or.inl hq)]
            · rw [if_neg (by intro hc; linarith), if_neg (by rintro ⟨_, hc | hc⟩ <;> linarith),
                if_neg (by rintro ⟨_, hc | hc⟩ <;> linarith),
                if_neg (by rintro ⟨_, hc | hc⟩ <;> linarith),
                if_pos hd, if_pos (Or.inl hq)]

lemma length_filter_cons {α : Type} (p : α → Bool) (a : α) (l : List α) :
    (List.filter p (a :: l)).length =
      (if p a then 1 else 0) + (List.filter p l).length := by
  by_cases h : p a
  · simp [List.filter_cons, h]
    omega
  · simp [List.filter_cons, h]

lemma bucketSum_eq (vals : List JsNum) :
    bucketSum vals = (vals.filter (fun v => jge v (.fin 0))).length := by
  induction vals with
  | nil => simp [bucketSum, bucketCounts]
  | cons v t ih =>
      have h := bucket_flags v
      simp only [bucketSum, bucketCounts] at ih ⊢
      rw [length_filter_cons, length_filter_cons, length_filter_cons,
        length_filter_cons, length_filter_cons, length_filter_cons]
      omega

/-! Invariants of the min-max range folds. -/

lemma rangeFoldAux :
    ∀ (l : List JsNum) (mm : JsNum × JsNum),
      (∀ v ∈ l, jsFinite v = true) →
      (mm = (.inf, .ninf) ∨ ∃ a b : ℚ, mm = (.fin a, .fin b) ∧ a ≤ b) →
      (l.foldl (fun mm v => (jmin mm.1 v, jmax mm.2 v)) mm = (.inf, .ninf) ∨
       ∃ a b : ℚ,
         l.foldl (fun mm v => (jmin mm.1 v, jmax mm.2 v)) mm = (.fin a, .fin b) ∧
           a ≤ b) := by
  intro l
  induction l with
  | nil => intro mm _ hmm; simpa using hmm
  | cons v t ih =>
      intro mm hfin hmm
      obtain ⟨q, rfl⟩ : ∃ q, v = JsNum.fin q := by
        have hv := hfin v (List.mem_cons_self v t)
        cases v <;> simp [jsFinite] at hv ⊢
      rw [List.foldl_cons]
      refine ih _ (fun x hx => hfin x (List.mem_cons_of_mem _ hx)) ?_
      rcases hmm with hmm | ⟨a, b, hmm, hab⟩
      · rw [hmm]
        exact Or.inr ⟨q, q, by simp [jmin, jmax], le_refl q⟩
      · rw [hmm]
        exact Or.inr ⟨min a q, max b q, by simp [jmin, jmax],
          le_trans (min_le_left a q) (le_trans hab (le_max_left b q))⟩

lemma rangeFold_spec (l : List JsNum) (hfin : ∀ v ∈ l, jsFinite v = true) :
    rangeFold l = (.inf, .ninf) ∨
      ∃ a b : ℚ, rangeFold l = (.fin a, .fin b) ∧ a ≤ b :=
  rangeFoldAux l (.inf, .ninf) hfin (Or.inl rfl)

lemma statsValid_finite {nd : Option JsNum} {v : JsNum}
    (h : statsValid nd v = true) : jsFinite v = true := by
  simp only [statsValid, Bool.and_eq_true] at h
  exact h.2

lemma tifStatsValid_finite {nd : Option JsNum} {v : JsNum}
    (h : tifStatsValid nd v = true) : jsFinite v = true := by
  simp only [tifStatsValid, Bool.and_eq_true] at h
  exact statsValid_finite h.1

lemma readFloodRange_le (nd : Option JsNum) (data : List JsNum) :
    jle (readFloodRange nd data).1 (readFloodRange nd data).2 = true := by
  have hfin : ∀ v ∈ data.filter (statsValid nd), jsFinite v = true := by
    intro v hv
    exact statsValid_finite (List.mem_filter.mp hv).2
  rcases rangeFold_spec _ hfin with hr | ⟨a, b, hr, hab⟩
  · simp [readFloodRange, hr, jeq, jle, jlt]
  · have h1 : (rangeFold (data.filter (statsValid nd))).1 = .fin a := by rw [hr]
    have h2 : (rangeFold (data.filter (statsValid nd))).2 = .fin b := by rw [hr]
    rcases lt_or_eq_of_le hab with hlt | heq
    · simp [readFloodRange, h1, h2, jeq, jle, jlt, hlt]
    · simp [readFloodRange, h1, h2, jeq, jle, jlt, heq]

lemma tifStatsRange_le (nd : Option JsNum) (data : List JsNum) :
    jle (tifStatsRange nd data).1 (tifStatsRange nd data).2 = true := by
  have hfin : ∀ v ∈ data.filter (tifStatsValid nd), jsFinite v = true := by
    intro v hv
    exact tifStatsValid_finite (List.mem_filter.mp hv).2
  rcases rangeFold_spec _ hfin with hr | ⟨a, b, hr, hab⟩
  · simp [tifStatsRange, hr, jeq, jle, jlt]
  · have h1 : (rangeFold (data.filter (tifStatsValid nd))).1 = .fin a := by rw [hr]
    have h2 : (rangeFold (data.filter (tifStatsValid nd))).2 = .fin b := by rw [hr]
    rcases lt_or_eq_of_le hab with hlt | heq
    · simp [tifStatsRange, h1, h2, jeq, jle, jlt, hlt]
    · simp [tifStatsRange, h1, h2, jeq, jle, jlt, heq]

lemma tifStatsValid_zero (nd : Option JsNum) :
    tifStatsValid nd (.fin 0) = false := by
  simp [tifStatsValid, jeq]

/-! Claim-grid update lemmas and the breadth-first termination measure. -/

lemma setId_self (f : ℤ × ℤ → ℕ) (n : ℤ × ℤ) (wid : ℕ) :
    setId f n wid n = wid := by simp [setId]

lemma setId_ne (f : ℤ × ℤ → ℕ) (n : ℤ × ℤ) (wid : ℕ) {q : ℤ × ℤ}
    (hq : q ≠ n) : setId f n wid q = f q := by simp [setId, hq]

lemma mem_gridFinset {w h : ℕ} {n : ℤ × ℤ} (hin : inGridB w h n = true) :
    n ∈ Finset.Icc (0 : ℤ) ((w : ℤ) - 1) ×ˢ Finset.Icc (0 : ℤ) ((h : ℤ) - 1) := by
  simp only [inGridB, Bool.and_eq_true, decide_eq_true_eq] at hin
  obtain ⟨⟨⟨h1, h2⟩, h3⟩, h4⟩ := hin
  simp only [Finset.mem_product, Finset.mem_Icc]
  omega

lemma zeroCount_setId {w h : ℕ} {f : ℤ × ℤ → ℕ} {n : ℤ × ℤ} {wid : ℕ}
    (hin : inGridB w h n = true) (h0 : f n = 0) (hw : wid ≠ 0) :
    zeroCount w h (setId f n wid) + 1 = zeroCount w h f := by
  unfold zeroCount
  have hmem : n ∈ (Finset.Icc (0 : ℤ) ((w : ℤ) - 1) ×ˢ
      Finset.Icc (0 : ℤ) ((h : ℤ) - 1)).filter (fun p => f p = 0) :=
    Finset.mem_filter.mpr ⟨mem_gridFinset hin, h0⟩
  have hset : (Finset.Icc (0 : ℤ) ((w : ℤ) - 1) ×ˢ
        Finset.Icc (0 : ℤ) ((h : ℤ) - 1)).filter (fun p => setId f n wid p = 0) =
      ((Finset.Icc (0 : ℤ) ((w : ℤ) - 1) ×ˢ
        Finset.Icc (0 : ℤ) ((h : ℤ) - 1)).filter (fun p => f p = 0)).erase n := by
    ext q
    by_cases hq : q = n
    · subst hq
      simp [setId, hw]
    · simp only [Finset.mem_filter, Finset.mem_erase, setId, if_neg hq]
      tauto
  rw [hset, Finset.card_erase_of_mem hmem]
  have hpos : 0 < ((Finset.Icc (0 : ℤ) ((w : ℤ) - 1) ×ˢ
      Finset.Icc (0 : ℤ) ((h : ℤ) - 1)).filter (fun p => f p = 0)).card :=
    Finset.card_pos.mpr ⟨n, hmem⟩
  omega

lemma relax_spec (g : ℤ × ℤ → JsNum) (nd : JsNum) (w h wid : ℕ) (p d : ℤ × ℤ)
    (acc : ((ℤ × ℤ) → ℕ) × List (ℤ × ℤ)) :
    relax g nd w h wid p acc d = acc ∨
      ∃ n, inGridB w h n = true ∧ ffValid g nd n = true ∧ acc.1 n = 0 ∧
        relax g nd w h wid p acc d = (setId acc.1 n wid, acc.2 ++ [n]) := by
  unfold relax
  dsimp only
  split_ifs with h1 h2
  · obtain ⟨hv, h0⟩ : ffValid g nd (p.1 + d.1, p.2 + d.2) = true ∧
        acc.1 (p.1 + d.1, p.2 + d.2) = 0 := by
      simpa [Bool.and_eq_true] using h2
    exact Or.inr ⟨(p.1 + d.1, p.2 + d.2), h1, hv, h0, rfl⟩
  · exact Or.inl rfl
  · exact Or.inl rfl

lemma nodup_append_snoc {α : Type} {l L : List α} {n : α}
    (hnd : (l ++ L).Nodup) (hl : n ∉ l) (hL : n ∉ L) :
    ((l ++ [n]) ++ L).Nodup := by
  rw [List.nodup_append] at hnd
  obtain ⟨h1, h2, h3⟩ := hnd
  rw [List.nodup_append]
  refine ⟨?_, h2, ?_⟩
  · rw [List.nodup_append]
    refine ⟨h1, List.nodup_singleton n, ?_⟩
    intro a ha han
    rw [List.mem_singleton] at han
    exact hl (han ▸ ha)
  · intro a ha haL
    rcases List.mem_append.mp ha with ha | ha
    · exact h3 ha haL
    · rw [List.mem_singleton] at ha
      exact hL (ha ▸ haL)

/-- Master invariant of a claiming fold (the neighbor-relaxation loop and
the seeding loop are both instances): each step either leaves the state
unchanged or claims one unclaimed in-grid valid cell and appends it to the
pushes.  Starting from a push list whose members are claimed, valid and
distinct from a protected list, the fold preserves claimedness, produces
only valid pushes taken from unclaimed cells, keeps everything distinct,
and does not increase the measure of five times the unclaimed-cell count
plus the push count. -/
lemma claimFold_master {β : Type} (g : ℤ × ℤ → JsNum) (nd : JsNum)
    (w h wid : ℕ) (hw : wid ≠ 0)
    (step : (((ℤ × ℤ) → ℕ) × List (ℤ × ℤ)) → β → (((ℤ × ℤ) → ℕ) × List (ℤ × ℤ)))
    (hspec : ∀ acc d, step acc d = acc ∨
      ∃ n, inGridB w h n = true ∧ ffValid g nd n = true ∧ acc.1 n = 0 ∧
        step acc d = (setId acc.1 n wid, acc.2 ++ [n])) :
    ∀ (ds : List β) (f : (ℤ × ℤ) → ℕ) (l L : List (ℤ × ℤ))
      (r : ((ℤ × ℤ) → ℕ) × List (ℤ × ℤ)),
      (∀ x ∈ l, f x ≠ 0) → (∀ x ∈ L, f x ≠ 0) → (l ++ L).Nodup →
      (∀ x ∈ l, ffValid g nd x = true) →
      ds.foldl step (f, l) = r →
      ((∀ q, f q ≠ 0 → r.1 q ≠ 0) ∧
       (∀ x ∈ r.2, r.1 x ≠ 0) ∧
       (∀ x ∈ L, r.1 x ≠ 0) ∧
       (r.2 ++ L).Nodup ∧
       (∀ x ∈ r.2, ffValid g nd x = true) ∧
       (∀ x ∈ r.2, x ∈ l ∨ f x = 0) ∧
       5 * zeroCount w h r.1 + r.2.length ≤ 5 * zeroCount w h f + l.length) := by
  intro ds
  induction ds with
  | nil =>
      intro f l L r hl hL hnd hval hr
      rw [List.foldl_nil] at hr
      subst hr
      exact ⟨fun q hq => hq, hl, hL, hnd, hval, fun x hx => Or.inl hx, le_refl _⟩
  | cons d ds ih =>
      intro f l L r hl hL hnd hval hr
      rw [List.foldl_cons] at hr
      rcases hspec (f, l) d with hstep | ⟨n, hin, hv, h0, hstep⟩
      · rw [hstep] at hr
        exact ih f l L r hl hL hnd hval hr
      · rw [hstep] at hr
        have hn_l : n ∉ l := fun hmem => hl n hmem h0
        have hn_L : n ∉ L := fun hmem => hL n hmem h0
        have hl' : ∀ x ∈ l ++ [n], setId f n wid x ≠ 0 := by
          intro x hx
          rcases List.mem_append.mp hx with hx | hx
          · have hxn : x ≠ n := fun he => hn_l (he ▸ hx)
            rw [setId_ne _ _ _ hxn]
            exact hl x hx
          · rw [List.mem_singleton] at hx
            subst hx
            rw [setId_self]
            exact hw
        have hL' : ∀ x ∈ L, setId f n wid x ≠ 0 := by
          intro x hx
          have hxn : x ≠ n := fun he => hn_L (he ▸ hx)
          rw [setId_ne _ _ _ hxn]
          exact hL x hx
        have hnd' : ((l ++ [n]) ++ L).Nodup := nodup_append_snoc hnd hn_l hn_L
        have hval' : ∀ x ∈ l ++ [n], ffValid g nd x = true := by
          intro x hx
          rcases List.mem_append.mp hx with hx | hx
          · exact hval x hx
          · rw [List.mem_singleton] at hx
            subst hx
            exact hv
        obtain ⟨Hmono, Hclaim, HL, Hnd, Hval, Hsrc, Hmeas⟩ :=
          ih (setId f n wid) (l ++ [n]) L r hl' hL' hnd' hval' hr
        refine ⟨?_, Hclaim, HL, Hnd, Hval, ?_, ?_⟩
        · intro q hq
          refine Hmono q ?_
          by_cases hqn : q = n
          · subst hqn
            rw [setId_self]
            exact hw
          · rw [setId_ne _ _ _ hqn]
            exact hq
        · intro x hx
          rcases Hsrc x hx with hx' | hx'
          · rcases List.mem_append.mp hx' with hm | hm
            · exact Or.inl hm
            · rw [List.mem_singleton] at hm
              exact Or.inr (hm ▸ h0)
          · by_cases hxn : x = n
            · exact Or.inr (hxn ▸ h0)
            · rw [setId_ne _ _ _ hxn] at hx'
              exact Or.inr hx'
        · have hz := zeroCount_setId hin (show f n = 0 from h0) hw
          rw [List.length_append, List.length_singleton] at Hmeas
          omega

/-- On any successful breadth-first run the reported total is the seed
total extended by exactly the depths of the popped pixels, in pop order. -/
lemma bfsRun_total (g : ℤ × ℤ → JsNum) (nd : JsNum) (w h wid : ℕ) :
    ∀ (fuel : ℕ) (s s' : FFState),
      bfsRun g nd w h wid fuel s = some s' →
      ∃ np, s'.pops = s.pops ++ np ∧
        s'.total = jsumFrom s.total (np.map g) := by
  intro fuel
  induction fuel with
  | zero =>
      intro s s' hrun
      obtain ⟨idM, queue, total, pops⟩ := s
      cases queue with
      | nil =>
          simp only [bfsRun] at hrun
          obtain rfl : FFState.mk idM [] total pops = s' := by
            exact Option.some.inj hrun
          exact ⟨[], by simp, by simp [jsumFrom]⟩
      | cons p rest =>
          simp only [bfsRun] at hrun
          exact Option.noConfusion hrun
  | succ fuel ih =>
      intro s s' hrun
      obtain ⟨idM, queue, total, pops⟩ := s
      cases queue with
      | nil =>
          simp only [bfsRun] at hrun
          obtain rfl : FFState.mk idM [] total pops = s' := by
            exact Option.some.inj hrun
          exact ⟨[], by simp, by simp [jsumFrom]⟩
      | cons p rest =>
          simp only [bfsRun] at hrun
          obtain ⟨np₁, hpops, htotal⟩ := ih _ s' hrun
          refine ⟨p :: np₁, ?_, ?_⟩
          · rw [hpops]
            simp
          · exact htotal

/-- Invariant of the breadth-first state: queue and pop trace are globally
distinct, all their members are claimed in the claim grid and carry valid
depths. -/
structure BInv (g : ℤ × ℤ → JsNum) (nd : JsNum) (s : FFState) : Prop where
  nodup : (s.queue ++ s.pops).Nodup
  qClaim : ∀ x ∈ s.queue, s.idM x ≠ 0
  pClaim : ∀ x ∈ s.pops, s.idM x ≠ 0
  qValid : ∀ x ∈ s.queue, ffValid g nd x = true
  pValid : ∀ x ∈ s.pops, ffValid g nd x = true

/-- Master lemma of the breadth-first loop: under the state invariant and a
nonzero ward id, fuel of five times the unclaimed-cell count plus the queue
length suffices; the loop drains the queue, preserves the invariant, never
unclaims a cell, and pops only former queue members or cells it claimed
from zero. -/
lemma bfsRun_master (g : ℤ × ℤ → JsNum) (nd : JsNum) (w h wid : ℕ)
    (hw : wid ≠ 0) :
    ∀ (fuel : ℕ) (s : FFState), BInv g nd s →
      5 * zeroCount w h s.idM + s.queue.length ≤ fuel →
      ∃ s', bfsRun g nd w h wid fuel s = some s' ∧
        s'.queue = [] ∧ BInv g nd s' ∧
        (∀ q, s.idM q ≠ 0 → s'.idM q ≠ 0) ∧
        (∃ np, s'.pops = s.pops ++ np ∧
          ∀ x ∈ np, x ∈ s.queue ∨ s.idM x = 0) := by
  intro fuel
  induction fuel with
  | zero =>
      intro s hinv hmeas
      obtain ⟨idM, queue, total, pops⟩ := s
      dsimp only at hmeas
      have hq : queue = [] := by
        have : queue.length = 0 := by omega
        exact List.length_eq_zero.mp this
      subst hq
      refine ⟨⟨idM, [], total, pops⟩, by simp only [bfsRun], rfl, hinv,
        fun q hq => hq, ⟨[], by simp, by simp⟩⟩
  | succ fuel ih =>
      intro s hinv hmeas
      obtain ⟨idM, queue, total, pops⟩ := s
      cases queue with
      | nil =>
          refine ⟨⟨idM, [], total, pops⟩, by simp only [bfsRun], rfl, hinv,
            fun q hq => hq, ⟨[], by simp, by simp⟩⟩
      | cons p rest =>
          obtain ⟨hnodup, hqClaim, hpClaim, hqValid, hpValid⟩ := hinv
          obtain ⟨Hmono, Hclaim, HL, Hnd, Hval, Hsrc, Hmeas⟩ :=
            claimFold_master g nd w h wid hw (relax g nd w h wid p)
              (fun acc d => relax_spec g nd w h wid p d acc) ffDirs idM []
              ((p :: rest) ++ pops)
              (ffDirs.foldl (relax g nd w h wid p) (idM, []))
              (by intro x hx; exact absurd hx (List.not_mem_nil x))
              (by
                intro x hx
                rcases List.mem_append.mp hx with hx | hx
                · exact hqClaim x hx
                · exact hpClaim x hx)
              (by simpa using hnodup)
              (by intro x hx; exact absurd hx (List.not_mem_nil x))
              rfl
          set r := ffDirs.foldl (relax g nd w h wid p) (idM, ([] : List (ℤ × ℤ)))
            with hrdef
          -- decompose the distinctness facts
          have hLnd : ((p :: rest) ++ pops).Nodup := hnodup
          rw [List.nodup_append] at hLnd
          obtain ⟨hprnd, hpopsnd, hdisjA⟩ := hLnd
          rw [List.nodup_cons] at hprnd
          obtain ⟨hp_rest, hrestnd⟩ := hprnd
          have hp_pops : p ∉ pops := fun hm => hdisjA (List.mem_cons_self p rest) hm
          have hrest_pops : ∀ x ∈ rest, x ∉ pops :=
            fun x hx hm => hdisjA (List.mem_cons_of_mem p hx) hm
          have hr2nd0 : (r.2 ++ ((p :: rest) ++ pops)).Nodup := Hnd
          rw [List.nodup_append] at hr2nd0
          obtain ⟨hr2nd, _, hdisjB⟩ := hr2nd0
          -- the new state after one iteration
          have hinv₁ : BInv g nd ⟨r.1, rest ++ r.2, jadd total (g p), pops ++ [p]⟩ := by
            refine ⟨?_, ?_, ?_, ?_, ?_⟩
            · -- ((rest ++ r.2) ++ (pops ++ [p])).Nodup
              rw [List.nodup_append]
              refine ⟨?_, ?_, ?_⟩
              · rw [List.nodup_append]
                refine ⟨hrestnd, hr2nd, ?_⟩
                intro a ha har
                exact hdisjB har (List.mem_append.mpr (Or.inl (List.mem_cons_of_mem p ha)))
              · rw [List.nodup_append]
                refine ⟨hpopsnd, List.nodup_singleton p, ?_⟩
                intro a ha hap
                rw [List.mem_singleton] at hap
                exact hp_pops (hap ▸ ha)
              · intro a ha hap
                rcases List.mem_append.mp ha with ha | ha
                · rcases List.mem_append.mp hap with hm | hm
                  · exact hrest_pops a ha hm
                  · rw [List.mem_singleton] at hm
                    exact hp_rest (hm ▸ ha)
                · rcases List.mem_append.mp hap with hm | hm
                  · exact hdisjB ha (List.mem_append.mpr (Or.inr hm))
                  · rw [List.mem_singleton] at hm
                    exact hdisjB ha
                      (List.mem_append.mpr (Or.inl (hm ▸ List.mem_cons_self p rest)))
            · intro x hx
              rcases List.mem_append.mp hx with hx | hx
              · exact HL x (List.mem_append.mpr (Or.inl (List.mem_cons_of_mem p hx)))
              · exact Hclaim x hx
            · intro x hx
              rcases List.mem_append.mp hx with hx | hx
              · exact HL x (List.mem_append.mpr (Or.inr hx))
              · rw [List.mem_singleton] at hx
                exact HL x (List.mem_append.mpr (Or.inl (hx ▸ List.mem_cons_self p rest)))
            · intro x hx
              rcases List.mem_append.mp hx with hx | hx
              · exact hqValid x (List.mem_cons_of_mem p hx)
              · exact Hval x hx
            · intro x hx
              rcases List.mem_append.mp hx with hx | hx
              · exact hpValid x hx
              · rw [List.mem_singleton] at hx
                exact hqValid x (hx ▸ List.mem_cons_self p rest)
          have hmeas₁ : 5 * zeroCount w h r.1 + (rest ++ r.2).length ≤ fuel := by
            rw [List.length_append]
            simp only [List.length_cons] at hmeas
            simp only [List.length_nil] at Hmeas
            omega
          obtain ⟨s', hrun', hqnil', hinv', hmono', np', hps', hsrc'⟩ :=
            ih ⟨r.1, rest ++ r.2, jadd total (g p), pops ++ [p]⟩ hinv₁ hmeas₁
          refine ⟨s', ?_, hqnil', hinv', ?_, ⟨p :: np', ?_, ?_⟩⟩
          · simp only [bfsRun]
            exact hrun'
          · intro q hq
            exact hmono' q (Hmono q hq)
          · rw [hps']
            simp
          · intro x hx
            rcases List.mem_cons.mp hx with hx | hx
            · exact Or.inl (hx ▸ List.mem_cons_self p rest)
            · rcases hsrc' x hx with hx' | hx'
              · rcases List.mem_append.mp hx' with hm | hm
                · exact Or.inl (List.mem_cons_of_mem p hm)
                · rcases Hsrc x hm with hm' | hm'
                  · exact absurd hm' (List.not_mem_nil x)
                  · exact Or.inr hm'
              · by_cases hx0 : idM x = 0
                · exact Or.inr hx0
                · exact absurd (Hmono x hx0) (by simpa using hx')

lemma seedStep_spec (g : ℤ × ℤ → JsNum) (nd : JsNum) (b : GeoBounds)
    (w h wid : ℕ) :
    ∀ (acc : ((ℤ × ℤ) → ℕ) × List (ℤ × ℤ)) (c : ℚ × ℚ),
      seedStep g nd b w h wid acc c = acc ∨
        ∃ n, inGridB w h n = true ∧ ffValid g nd n = true ∧ acc.1 n = 0 ∧
          seedStep g nd b w h wid acc c = (setId acc.1 n wid, acc.2 ++ [n]) := by
  intro acc c
  unfold seedStep
  dsimp only
  split_ifs with h1 h2 h3
  · exact Or.inl rfl
  · exact Or.inr ⟨latLonToPixel b w h c.1 c.2, h1, h3, not_ne_iff.mp h2, rfl⟩
  · exact Or.inl rfl
  · exact Or.inl rfl

/-- The seeding loop claims each seed before enqueuing it, enqueues only
cells it found unclaimed and valid, never produces duplicates, and never
unclaims a cell. -/
lemma seedWard_master (g : ℤ × ℤ → JsNum) (nd : JsNum) (b : GeoBounds)
    (w h wid : ℕ) (hw : wid ≠ 0) (coords : List (ℚ × ℚ))
    (idM0 : ℤ × ℤ → ℕ) :
    ((∀ q, idM0 q ≠ 0 → (seedWard g nd b w h wid coords idM0).1 q ≠ 0) ∧
     (∀ x ∈ (seedWard g nd b w h wid coords idM0).2,
        (seedWard g nd b w h wid coords idM0).1 x ≠ 0) ∧
     (seedWard g nd b w h wid coords idM0).2.Nodup ∧
     (∀ x ∈ (seedWard g nd b w h wid coords idM0).2, ffValid g nd x = true) ∧
     (∀ x ∈ (seedWard g nd b w h wid coords idM0).2, idM0 x = 0)) := by
  obtain ⟨Hmono, Hclaim, _, Hnd, Hval, Hsrc, _⟩ :=
    claimFold_master g nd w h wid hw (seedStep g nd b w h wid)
      (seedStep_spec g nd b w h wid) coords idM0 [] []
      (seedWard g nd b w h wid coords idM0)
      (by intro x hx; exact absurd hx (List.not_mem_nil x))
      (by intro x hx; exact absurd hx (List.not_mem_nil x))
      (by simp)
      (by intro x hx; exact absurd hx (List.not_mem_nil x))
      rfl
  refine ⟨Hmono, Hclaim, by simpa using Hnd, Hval, ?_⟩
  intro x hx
  rcases Hsrc x hx with hx' | hx'
  · exact absurd hx' (List.not_mem_nil x)
  · exact hx'

/-- Per-ward guarantees of the flood-fill service: the run succeeds with the
canonical fuel budget, the popped pixels are distinct, were all unclaimed
before the ward ran and are claimed after it, carry valid depths, no other
ward's claims are disturbed, and the reported total is exactly the sum of
the popped depths. -/
lemma processWard_master (g : ℤ × ℤ → JsNum) (nd : JsNum) (b : GeoBounds)
    (w h : ℕ) (ward : FFWard) (hw : ward.wid ≠ 0) (idM0 : ℤ × ℤ → ℕ) :
    ∃ idM' res, processWard g nd b w h ward idM0 = some (idM', res) ∧
      res.wid = ward.wid ∧
      res.pops.Nodup ∧
      (∀ x ∈ res.pops, idM' x ≠ 0) ∧
      (∀ x ∈ res.pops, idM0 x = 0) ∧
      (∀ x ∈ res.pops, ffValid g nd x = true) ∧
      (∀ q, idM0 q ≠ 0 → idM' q ≠ 0) ∧
      res.total = jsumList (res.pops.map g) := by
  obtain ⟨Smono, Sclaim, Snd, Sval, Ssrc⟩ :=
    seedWard_master g nd b w h ward.wid hw ward.coords idM0
  have hbinv : BInv g nd
      ⟨(seedWard g nd b w h ward.wid ward.coords idM0).1,
       (seedWard g nd b w h ward.wid ward.coords idM0).2, .fin 0, []⟩ := by
    refine ⟨by simpa using Snd, Sclaim, ?_, Sval, ?_⟩
    · intro x hx
      exact absurd hx (List.not_mem_nil x)
    · intro x hx
      exact absurd hx (List.not_mem_nil x)
  obtain ⟨s', hrun, hqnil, hinv', hmono', np, hnp, hsrcnp⟩ :=
    bfsRun_master g nd w h ward.wid hw
      (5 * zeroCount w h (seedWard g nd b w h ward.wid ward.coords idM0).1 +
        (seedWard g nd b w h ward.wid ward.coords idM0).2.length)
      ⟨(seedWard g nd b w h ward.wid ward.coords idM0).1,
       (seedWard g nd b w h ward.wid ward.coords idM0).2, .fin 0, []⟩
      hbinv (le_refl _)
  obtain ⟨np₂, hnp₂, htot⟩ :=
    bfsRun_total g nd w h ward.wid _ _ _ hrun
  have hproc : processWard g nd b w h ward idM0 =
      some (s'.idM, ⟨ward.wid, s'.total, s'.pops⟩) := by
    unfold processWard
    simp only [hrun]
  have hpopsnp : s'.pops = np := by simpa using hnp
  have hpopsnp₂ : s'.pops = np₂ := by simpa using hnp₂
  refine ⟨s'.idM, ⟨ward.wid, s'.total, s'.pops⟩, hproc, rfl, ?_, ?_, ?_, ?_, ?_, ?_⟩
  · have := hinv'.nodup
    rw [hqnil] at this
    simpa using this
  · exact hinv'.pClaim
  · intro x hx
    rcases hsrcnp x (hpopsnp ▸ hx) with hx' | hx'
    · exact Ssrc x hx'
    · by_cases h0 : idM0 x = 0
      · exact h0
      · exact absurd (Smono x h0) (by simpa using hx')
  · exact hinv'.pValid
  · intro q hq
    exact hmono' q (Smono q hq)
  · rw [htot, hpopsnp₂]
    rfl

/-- Invariant of the multi-ward fold: processed wards accumulate a claim
grid marking every popped pixel, the pop traces stay globally distinct, and
each new result's total is the sum of its pop trace. -/
lemma processFold_master (g : ℤ × ℤ → JsNum) (nd : JsNum) (b : GeoBounds)
    (w h : ℕ) :
    ∀ (wards : List FFWard) (idM : (ℤ × ℤ) → ℕ) (resAcc : List FFResult),
      (∀ wd ∈ wards, wd.wid ≠ 0) →
      ((resAcc.map FFResult.pops).flatten).Nodup →
      (∀ x ∈ (resAcc.map FFResult.pops).flatten, idM x ≠ 0) →
      ∃ idM' res',
        wards.foldl
          (fun (acc : Option (((ℤ × ℤ) → ℕ) × List FFResult)) ward =>
            match acc with
            | none => none
            | some ir =>
                match processWard g nd b w h ward ir.1 with
                | some r => some (r.1, ir.2 ++ [r.2])
                | none => none)
          (some (idM, resAcc)) = some (idM', res') ∧
        (∃ news, res' = resAcc ++ news) ∧
        ((res'.map FFResult.pops).flatten).Nodup ∧
        (∀ x ∈ (res'.map FFResult.pops).flatten, idM' x ≠ 0) ∧
        (∀ r ∈ res', r ∈ resAcc ∨
          (r.total = jsumList (r.pops.map g) ∧ r.pops.Nodup)) := by
  intro wards
  induction wards with
  | nil =>
      intro idM resAcc _ hnd hclaim
      exact ⟨idM, resAcc, rfl, ⟨[], by simp⟩, hnd, hclaim,
        fun r hr => Or.inl hr⟩
  | cons ward wards ih =>
      intro idM resAcc hw hnd hclaim
      have hward : ward.wid ≠ 0 := hw ward (List.mem_cons_self ward wards)
      obtain ⟨idM₁, res₁, hpw, hwid₁, hnd₁, hclaim₁, hsrc₁, _, hmono₁, htot₁⟩ :=
        processWard_master g nd b w h ward hward idM
      have hstep : (ward :: wards).foldl
          (fun (acc : Option (((ℤ × ℤ) → ℕ) × List FFResult)) ward =>
            match acc with
            | none => none
            | some ir =>
                match processWard g nd b w h ward ir.1 with
                | some r => some (r.1, ir.2 ++ [r.2])
                | none => none)
          (some (idM, resAcc)) =
          wards.foldl
            (fun (acc : Option (((ℤ × ℤ) → ℕ) × List FFResult)) ward =>
              match acc with
              | none => none
              | some ir =>
                  match processWard g nd b w h ward ir.1 with
                  | some r => some (r.1, ir.2 ++ [r.2])
                  | none => none)
            (some (idM₁, resAcc ++ [res₁])) := by
        rw [List.foldl_cons]
        simp only [hpw]
      have hflat : (((resAcc ++ [res₁]).map FFResult.pops).flatten) =
          (resAcc.map FFResult.pops).flatten ++ res₁.pops := by
        simp
      have hnd' : (((resAcc ++ [res₁]).map FFResult.pops).flatten).Nodup := by
        rw [hflat, List.nodup_append]
        refine ⟨hnd, hnd₁, ?_⟩
        intro a ha ha₁
        exact hclaim a ha (hsrc₁ a ha₁)
      have hclaim' : ∀ x ∈ ((resAcc ++ [res₁]).map FFResult.pops).flatten,
          idM₁ x ≠ 0 := by
        rw [hflat]
        intro x hx
        rcases List.mem_append.mp hx with hx | hx
        · exact hmono₁ x (hclaim x hx)
        · exact hclaim₁ x hx
      obtain ⟨idM', res', hfold, ⟨news, hres⟩, Hnd, Hclaim, Hprop⟩ :=
        ih idM₁ (resAcc ++ [res₁])
          (fun wd hwd => hw wd (List.mem_cons_of_mem ward hwd)) hnd' hclaim'
      refine ⟨idM', res', by rw [hstep]; exact hfold,
        ⟨[res₁] ++ news, by rw [hres, List.append_assoc]⟩, Hnd, Hclaim, ?_⟩
      intro r hr
      rcases Hprop r hr with hr' | hr'
      · rcases List.mem_append.mp hr' with hm | hm
        · exact Or.inl hm
        · rw [List.mem_singleton] at hm
          subst hm
          exact Or.inr ⟨htot₁, hnd₁⟩
      · exact Or.inr hr'

/-- Whole flood-fill run guarantees: with nonzero ward ids the run
terminates successfully, the pop traces of all wards are globally distinct,
and each ward's reported depth is the sum over its own pop trace. -/
lemma processFF_master (g : ℤ × ℤ → JsNum) (nd : JsNum) (b : GeoBounds)
    (w h : ℕ) (wards : List FFWard) (hw : ∀ wd ∈ wards, wd.wid ≠ 0) :
    ∃ res, processFF g nd b w h wards = some res ∧
      ((res.map FFResult.pops).flatten).Nodup ∧
      (∀ r ∈ res, r.total = jsumList (r.pops.map g) ∧ r.pops.Nodup) := by
  obtain ⟨idM', res', hfold, _, Hnd, _, Hprop⟩ :=
    processFold_master g nd b w h wards (fun _ => 0) [] hw (by simp) (by simp)
  refine ⟨res', ?_, Hnd, ?_⟩
  · unfold processFF
    rw [hfold]
    rfl
  · intro r hr
    rcases Hprop r hr with hr' | hr'
    · exact absurd hr' (List.not_mem_nil r)
    · exact hr'

/-! Guarantees that hold on any successful flood-fill run, with no
assumption on the ward ids: pushes carry valid depths and totals are sums
of pop traces. -/

lemma claimFold_valid {β : Type} (g : ℤ × ℤ → JsNum) (nd : JsNum)
    (w h wid : ℕ)
    (step : (((ℤ × ℤ) → ℕ) × List (ℤ × ℤ)) → β → (((ℤ × ℤ) → ℕ) × List (ℤ × ℤ)))
    (hspec : ∀ acc d, step acc d = acc ∨
      ∃ n, inGridB w h n = true ∧ ffValid g nd n = true ∧ acc.1 n = 0 ∧
        step acc d = (setId acc.1 n wid, acc.2 ++ [n])) :
    ∀ (ds : List β) (f : (ℤ × ℤ) → ℕ) (l : List (ℤ × ℤ)),
      (∀ x ∈ l, ffValid g nd x = true) →
      ∀ x ∈ (ds.foldl step (f, l)).2, ffValid g nd x = true := by
  intro ds
  induction ds with
  | nil => intro f l hval x hx; exact hval x hx
  | cons d ds ih =>
      intro f l hval x hx
      rw [List.foldl_cons] at hx
      rcases hspec (f, l) d with hstep | ⟨n, _, hv, _, hstep⟩
      · rw [hstep] at hx
        exact ih f l hval x hx
      · rw [hstep] at hx
        refine ih _ (l ++ [n]) ?_ x hx
        intro y hy
        rcases List.mem_append.mp hy with hy | hy
        · exact hval y hy
        · rw [List.mem_singleton] at hy
          exact hy ▸ hv

lemma bfsRun_validPops (g : ℤ × ℤ → JsNum) (nd : JsNum) (w h wid : ℕ) :
    ∀ (fuel : ℕ) (s s' : FFState),
      (∀ x ∈ s.queue, ffValid g nd x = true) →
      (∀ x ∈ s.pops, ffValid g nd x = true) →
      bfsRun g nd w h wid fuel s = some s' →
      ∀ x ∈ s'.pops, ffValid g nd x = true := by
  intro fuel
  induction fuel with
  | zero =>
      intro s s' hq hp hrun
      obtain ⟨idM, queue, total, pops⟩ := s
      cases queue with
      | nil =>
          simp only [bfsRun] at hrun
          obtain rfl : FFState.mk idM [] total pops = s' := Option.some.inj hrun
          exact hp
      | cons p rest =>
          simp only [bfsRun] at hrun
          exact Option.noConfusion hrun
  | succ fuel ih =>
      intro s s' hq hp hrun
      obtain ⟨idM, queue, total, pops⟩ := s
      cases queue with
      | nil =>
          simp only [bfsRun] at hrun
          obtain rfl : FFState.mk idM [] total pops = s' := Option.some.inj hrun
          exact hp
      | cons p rest =>
          simp only [bfsRun] at hrun
          refine ih _ s' ?_ ?_ hrun
          · intro x hx
            rcases List.mem_append.mp hx with hx | hx
            · exact hq x (List.mem_cons_of_mem p hx)
            · exact claimFold_valid g nd w h wid (relax g nd w h wid p)
                (fun acc d => relax_spec g nd w h wid p d acc) ffDirs idM []
                (by intro y hy; exact absurd hy (List.not_mem_nil y)) x hx
          · intro x hx
            rcases List.mem_append.mp hx with hx | hx
            · exact hp x hx
            · rw [List.mem_singleton] at hx
              exact hq x (hx ▸ List.mem_cons_self p rest)

lemma processWard_light (g : ℤ × ℤ → JsNum) (nd : JsNum) (b : GeoBounds)
    (w h : ℕ) (ward : FFWard) (idM0 : ℤ × ℤ → ℕ) (idM' : (ℤ × ℤ) → ℕ)
    (res : FFResult) :
    processWard g nd b w h ward idM0 = some (idM', res) →
    (res.total = jsumList (res.pops.map g) ∧
     ∀ p ∈ res.pops, ffValid g nd p = true) := by
  intro hpw
  have hpw' : (match bfsRun g nd w h ward.wid
      (5 * zeroCount w h (seedWard g nd b w h ward.wid ward.coords idM0).1 +
        (seedWard g nd b w h ward.wid ward.coords idM0).2.length)
      ⟨(seedWard g nd b w h ward.wid ward.coords idM0).1,
       (seedWard g nd b w h ward.wid ward.coords idM0).2, .fin 0, []⟩ with
      | some s => some (s.idM, (⟨ward.wid, s.total, s.pops⟩ : FFResult))
      | none => none) = some (idM', res) := hpw
  cases hbr : bfsRun g nd w h ward.wid
      (5 * zeroCount w h (seedWard g nd b w h ward.wid ward.coords idM0).1 +
        (seedWard g nd b w h ward.wid ward.coords idM0).2.length)
      ⟨(seedWard g nd b w h ward.wid ward.coords idM0).1,
       (seedWard g nd b w h ward.wid ward.coords idM0).2, .fin 0, []⟩ with
  | none =>
      rw [hbr] at hpw'
      exact Option.noConfusion hpw'
  | some s' =>
      rw [hbr] at hpw'
      obtain ⟨rfl, rfl⟩ : idM' = s'.idM ∧ res = ⟨ward.wid, s'.total, s'.pops⟩ := by
        have := Option.some.inj hpw'
        exact ⟨congrArg Prod.fst this.symm, congrArg Prod.snd this.symm⟩
      obtain ⟨np, hnp, htot⟩ := bfsRun_total g nd w h ward.wid _ _ _ hbr
      have hseedValid : ∀ x ∈ (seedWard g nd b w h ward.wid ward.coords idM0).2,
          ffValid g nd x = true :=
        claimFold_valid g nd w h ward.wid (seedStep g nd b w h ward.wid)
          (seedStep_spec g nd b w h ward.wid) ward.coords idM0 []
          (by intro y hy; exact absurd hy (List.not_mem_nil y))
      constructor
      · have hnp' : s'.pops = np := by simpa using hnp
        rw [htot, hnp']
        rfl
      · exact bfsRun_validPops g nd w h ward.wid _ _ _ hseedValid
          (by intro y hy; exact absurd hy (List.not_mem_nil y)) hbr

lemma processFold_none (g : ℤ × ℤ → JsNum) (nd : JsNum) (b : GeoBounds)
    (w h : ℕ) :
    ∀ (wards : List FFWard),
      wards.foldl
        (fun (acc : Option (((ℤ × ℤ) → ℕ) × List FFResult)) ward =>
          match acc with
          | none => none
          | some ir =>
              match processWard g nd b w h ward ir.1 with
              | some r => some (r.1, ir.2 ++ [r.2])
              | none => none)
        none = none := by
  intro wards
  induction wards with
  | nil => rfl
  | cons ward wards ih => exact ih

/-- On any successful flood-fill run, every ward's reported depth is the
plain sum of the depths of its popped pixels, and every popped pixel
carries a valid depth (strictly positive and not the sentinel). -/
lemma processFF_light (g : ℤ × ℤ → JsNum) (nd : JsNum) (b : GeoBounds)
    (w h : ℕ) :
    ∀ (wards : List FFWard) (idM : (ℤ × ℤ) → ℕ) (resAcc : List FFResult)
      (res : List FFResult),
      (∀ r ∈ resAcc, r.total = jsumList (r.pops.map g) ∧
        ∀ p ∈ r.pops, ffValid g nd p = true) →
      (wards.foldl
        (fun (acc : Option (((ℤ × ℤ) → ℕ) × List FFResult)) ward =>
          match acc with
          | none => none
          | some ir =>
              match processWard g nd b w h ward ir.1 with
              | some r => some (r.1, ir.2 ++ [r.2])
              | none => none)
        (some (idM, resAcc))).map (fun ir => ir.2) = some res →
      ∀ r ∈ res, r.total = jsumList (r.pops.map g) ∧
        ∀ p ∈ r.pops, ffValid g nd p = true := by
  intro wards
  induction wards with
  | nil =>
      intro idM resAcc res hAcc hfold
      rw [List.foldl_nil] at hfold
      obtain rfl : resAcc = res := Option.some.inj hfold
      exact hAcc
  | cons ward wards ih =>
      intro idM resAcc res hAcc hfold
      rw [List.foldl_cons] at hfold
      dsimp only at hfold
      cases hpw : processWard g nd b w h ward idM with
      | none =>
          rw [hpw] at hfold
          rw [processFold_none] at hfold
          exact Option.noConfusion hfold
      | some pr =>
          obtain ⟨idM₁, res₁⟩ := pr
          rw [hpw] at hfold
          refine ih idM₁ (resAcc ++ [res₁]) res ?_ hfold
          intro r hr
          rcases List.mem_append.mp hr with hr | hr
          · exact hAcc r hr
          · rw [List.mem_singleton] at hr
            subst hr
            exact processWard_light g nd b w h ward idM idM₁ r hpw

/-! Concrete fixtures used by the claim evaluations. -/

/-- A square outer ring, vertices as (lat, lon). -/
def ringA : List (ℚ × ℚ) := [(0, 0), (0, 2), (2, 2), (2, 0)]

lemma ringA_contains : isPointInPolygon (1, 1) ringA = true := by
  norm_num [isPointInPolygon, ringA, List.range_succ, List.getD]

lemma ringA_scanInside_single : scanInside [ringA] (1, 1) = true := by
  simp only [scanInside, List.foldl_cons, List.foldl_nil, ringA_contains]
  rfl

lemma ringA_scanInside_double : scanInside [ringA, ringA] (1, 1) = false := by
  simp only [scanInside, List.foldl_cons, List.foldl_nil, ringA_contains]
  rfl

/-- The sentinel value itself fails the statistics validity filter. -/
lemma statsValid_sentinel :
    statsValid (some (JsNum.fin (-9999))) (JsNum.fin (-9999)) = false := by
  simp only [statsValid, nearNoData, jsub, jabs, jlt, jsFinite, Bool.and_true]
  rw [show |(-9999 : ℚ) - (-9999)| = 0 by norm_num]
  rw [decide_eq_true (by norm_num : (0 : ℚ) < 1 / 10000)]
  rfl

lemma pixelCenter_ringA : pixelCenter ⟨2, 0, 2, 0⟩ 1 1 0 0 = (1, 1) := by
  norm_num [pixelCenter]

/-- The full-grid scan of a one-by-one raster, reduced to its single pixel. -/
lemma wardScan_one (g : ℕ → ℕ → JsNum) (b : GeoBounds) (nd : JsNum)
    (ways : List (List (ℚ × ℚ))) :
    wardScan g b 1 1 nd ways =
      (if scanInside ways (pixelCenter b 1 1 0 0) then
        (if scanGuard (g 0 0) nd then jadd (.fin 0) (g 0 0) else .fin 0, 1)
      else (.fin 0, 0)) := rfl

lemma latLonToPixel_seed2 :
    latLonToPixel ⟨1, 0, 2, 0⟩ 2 1 (1 / 2) (1 / 2) = ((0 : ℤ), (0 : ℤ)) := by
  norm_num [latLonToPixel]

lemma latLonToPixel_seed1 :
    latLonToPixel ⟨1, 0, 1, 0⟩ 1 1 (1 / 2) (1 / 2) = ((0 : ℤ), (0 : ℤ)) := by
  norm_num [latLonToPixel]

/-- Flood-fill fixture run: a two-pixel raster of uniform depth two with a
single seed claims both pixels and reports their depth sum four. -/
lemma processFF_fixture2 :
    processFF (fun _ => JsNum.fin 2) (.fin (-9999)) ⟨1, 0, 2, 0⟩ 2 1
        [⟨1, [(1 / 2, 1 / 2)]⟩] =
      some [⟨1, .fin 4, [((0 : ℤ), (0 : ℤ)), ((1 : ℤ), (0 : ℤ))]⟩] := by
  have hseed : seedWard (fun _ => JsNum.fin 2) (.fin (-9999)) ⟨1, 0, 2, 0⟩ 2 1 1
      [(1 / 2, 1 / 2)] (fun _ => 0) =
      (setId (fun _ => 0) ((0 : ℤ), (0 : ℤ)) 1, [((0 : ℤ), (0 : ℤ))]) := by
    simp only [seedWard, List.foldl_cons, List.foldl_nil, seedStep,
      latLonToPixel_seed2]
    norm_num [inGridB, ffValid, jeq, jgt, jlt, setId]
  have htot : jadd (jadd (JsNum.fin 0) (JsNum.fin 2)) (JsNum.fin 2) =
      JsNum.fin 4 := by
    norm_num [jadd]
  have hproc : processWard (fun _ => JsNum.fin 2) (.fin (-9999)) ⟨1, 0, 2, 0⟩ 2 1
      ⟨1, [(1 / 2, 1 / 2)]⟩ (fun _ => 0) =
      some (setId (setId (fun _ => 0) ((0 : ℤ), (0 : ℤ)) 1) ((1 : ℤ), (0 : ℤ)) 1,
        ⟨1, jadd (jadd (.fin 0) (.fin 2)) (.fin 2),
          [((0 : ℤ), (0 : ℤ)), ((1 : ℤ), (0 : ℤ))]⟩) := by
    unfold processWard
    simp only [hseed]
    rfl
  unfold processFF
  rw [List.foldl_cons]
  simp only [hproc, htot]
  rfl

/-- Flood-fill fixture run on a one-pixel raster of depth positive infinity:
the pixel passes the validity guard and infinity is added to the total. -/
lemma processFF_fixtureInf :
    processFF (fun _ => JsNum.inf) (.fin (-9999)) ⟨1, 0, 1, 0⟩ 1 1
        [⟨1, [(1 / 2, 1 / 2)]⟩] =
      some [⟨1, .inf, [((0 : ℤ), (0 : ℤ))]⟩] := by
  have hseed : seedWard (fun _ => JsNum.inf) (.fin (-9999)) ⟨1, 0, 1, 0⟩ 1 1 1
      [(1 / 2, 1 / 2)] (fun _ => 0) =
      (setId (fun _ => 0) ((0 : ℤ), (0 : ℤ)) 1, [((0 : ℤ), (0 : ℤ))]) := by
    simp only [seedWard, List.foldl_cons, List.foldl_nil, seedStep,
      latLonToPixel_seed1]
    norm_num [inGridB, ffValid, jeq, jgt, jlt, setId]
  have hproc : processWard (fun _ => JsNum.inf) (.fin (-9999)) ⟨1, 0, 1, 0⟩ 1 1
      ⟨1, [(1 / 2, 1 / 2)]⟩ (fun _ => 0) =
      some (setId (fun _ => 0) ((0 : ℤ), (0 : ℤ)) 1,
        ⟨1, .inf, [((0 : ℤ), (0 : ℤ))]⟩) := by
    unfold processWard
    simp only [hseed]
    rfl
  unfold processFF
  rw [List.foldl_cons]
  simp only [hproc]
  rfl

/-- C1: code-bug evaluation.  The full-grid scan is specified to combine
containment across a polygon's outer rings with OR, attributing every pixel
inside at least one ring.  The source instead toggles the inside flag once
per containing ring (XOR): at a ward whose boundary carries two identical
outer rings, the center of the single pixel of a one-by-one raster lies
inside each ring by even-odd ray casting, yet the scan classifies it
outside and attributes nothing, so the specified OR combination is
violated. -/
theorem C1_multi_ring_xor_bug :
    isPointInPolygon (1, 1) ringA = true ∧
    scanInside [ringA, ringA] (1, 1) = false ∧
    pixelCenter ⟨2, 0, 2, 0⟩ 1 1 0 0 = (1, 1) ∧
    wardScan (fun _ _ => .fin 1) ⟨2, 0, 2, 0⟩ 1 1 (.fin (-9999)) [ringA, ringA] =
      (.fin 0, 0) := by
  refine ⟨ringA_contains, ringA_scanInside_double, pixelCenter_ringA, ?_⟩
  rw [wardScan_one, pixelCenter_ringA, ringA_scanInside_double]
  simp

/-- C2: counterexample.  The flood-fill attribution reports the raw
accumulated depth sum, not an average: a run over a two-pixel raster of
uniform depth two attributes both pixels to the ward and reports depth
four, which differs from the sum divided by the count of attributed
pixels. -/
theorem C2_counterexample :
    processFF (fun _ => .fin 2) (.fin (-9999)) ⟨1, 0, 2, 0⟩ 2 1
        [⟨1, [(1 / 2, 1 / 2)]⟩] =
      some [⟨1, .fin 4, [(0, 0), (1, 0)]⟩] ∧
    jdiv (.fin 4) (.fin 2) = .fin 2 ∧ JsNum.fin 4 ≠ JsNum.fin 2 := by
  refine ⟨processFF_fixture2, by norm_num [jdiv], by simp⟩

/-- C2 amended: the full-grid scan reports the accumulated depth sum of the
guard-passing inside pixels divided by the count of inside pixels, with the
count replaced by one when zero, hence zero when no pixel is attributed;
the flood-fill reports the raw accumulated sum over its popped pixels with
no division. -/
theorem C2_amended :
    (∀ (g : ℕ → ℕ → JsNum) (b : GeoBounds) (w h : ℕ) (nd : JsNum)
        (ways : List (List (ℚ × ℚ))),
      wardScanReport g b w h nd ways =
        jdiv (jsumList (((scanPixelList w h).filter (fun p =>
            scanInside ways (pixelCenter b w h p.1 p.2) &&
              scanGuard (g p.2 p.1) nd)).map (fun p => g p.2 p.1)))
          (.fin (if ((scanPixelList w h).filter (fun p =>
                scanInside ways (pixelCenter b w h p.1 p.2))).length = 0 then 1
            else (((scanPixelList w h).filter (fun p =>
                scanInside ways (pixelCenter b w h p.1 p.2))).length : ℚ))) ∧
      (((scanPixelList w h).filter (fun p =>
          scanInside ways (pixelCenter b w h p.1 p.2))).length = 0 →
        wardScanReport g b w h nd ways = .fin 0)) ∧
    (∀ (g : ℤ × ℤ → JsNum) (nd : JsNum) (b : GeoBounds) (w h : ℕ)
        (wards : List FFWard) (res : List FFResult),
      processFF g nd b w h wards = some res →
      ∀ r ∈ res, r.total = jsumList (r.pops.map g)) := by
  constructor
  · intro g b w h nd ways
    constructor
    · unfold wardScanReport
      rw [wardScan_closed]
    · intro hcount
      unfold wardScanReport
      rw [wardScan_closed]
      have hinside : (scanPixelList w h).filter (fun p =>
          scanInside ways (pixelCenter b w h p.1 p.2)) = [] :=
        List.length_eq_zero.mp hcount
      have hguard : (scanPixelList w h).filter (fun p =>
          scanInside ways (pixelCenter b w h p.1 p.2) &&
            scanGuard (g p.2 p.1) nd) = [] := by
        rw [List.filter_eq_nil_iff] at hinside ⊢
        intro a ha
        simp only [Bool.and_eq_true, not_and]
        intro hins
        exact absurd hins (hinside a ha)
      rw [hguard, hcount]
      simp [jsumList, jsumFrom, jdiv]
  · intro g nd b w h wards res hrun r hr
    exact (processFF_light g nd b w h wards (fun _ => 0) [] res
      (by intro r hr; exact absurd hr (List.not_mem_nil r)) hrun r hr).1

/-- C2 amended, witness: concrete instantiations of both parts.  The
full-grid zero-count part is discharged at an empty ward list on a
one-by-one raster; the flood-fill part at the two-pixel uniform run. -/
theorem C2_amended_witness :
    wardScanReport (fun _ _ => JsNum.fin 1) ⟨2, 0, 2, 0⟩ 1 1
        (.fin (-9999)) [] = .fin 0 ∧
    (∀ r ∈ [(⟨1, .fin 4, [(0, 0), (1, 0)]⟩ : FFResult)],
      r.total = jsumList (r.pops.map (fun _ => JsNum.fin 2))) :=
  ⟨(C2_amended.1 (fun _ _ => JsNum.fin 1) ⟨2, 0, 2, 0⟩ 1 1
      (.fin (-9999)) []).2 (by decide),
   C2_amended.2 (fun _ => JsNum.fin 2) (.fin (-9999)) ⟨1, 0, 2, 0⟩ 2 1
      [⟨1, [(1 / 2, 1 / 2)]⟩] [⟨1, .fin 4, [(0, 0), (1, 0)]⟩] processFF_fixture2⟩

/-- C3: counterexample.  Non-finite pixel values are not excluded from the
attribution sums: a positive-infinity depth passes both depth guards and is
added (the full-grid sum and the flood-fill total become infinity), and a
NaN depth passes the full-grid guard and is added (the sum becomes NaN). -/
theorem C3_counterexample :
    scanGuard .inf (.fin (-9999)) = true ∧
    scanGuard .nan (.fin (-9999)) = true ∧
    jsFinite .inf = false ∧ jsFinite .nan = false ∧
    (wardScan (fun _ _ => .inf) ⟨2, 0, 2, 0⟩ 1 1 (.fin (-9999)) [ringA]).1 =
      .inf ∧
    (wardScan (fun _ _ => .nan) ⟨2, 0, 2, 0⟩ 1 1 (.fin (-9999)) [ringA]).1 =
      .nan ∧
    processFF (fun _ => .inf) (.fin (-9999)) ⟨1, 0, 1, 0⟩ 1 1
        [⟨1, [(1 / 2, 1 / 2)]⟩] =
      some [⟨1, .inf, [(0, 0)]⟩] := by
  refine ⟨by decide, by decide, by decide, by decide, ?_, ?_, processFF_fixtureInf⟩
  · rw [wardScan_one, pixelCenter_ringA, ringA_scanInside_single]
    simp [scanGuard, jle, jlt, jeq, jadd]
  · rw [wardScan_one, pixelCenter_ringA, ringA_scanInside_single]
    simp [scanGuard, jle, jlt, jeq, jadd]

/-- C3 amended: in both attribution algorithms a pixel value strictly equal
to the sentinel is never added to any ward's sum — the full-grid guard
rejects it and every flood-fill popped pixel is valid, hence not the
sentinel — but non-finite values are not excluded in general. -/
theorem C3_amended :
    (∀ (depth nd : JsNum), jeq depth nd = true → scanGuard depth nd = false) ∧
    (∀ (g : ℕ → ℕ → JsNum) (b : GeoBounds) (w h : ℕ) (nd : JsNum)
        (ways : List (List (ℚ × ℚ))) (p : ℕ × ℕ),
      p ∈ (scanPixelList w h).filter (fun p =>
          scanInside ways (pixelCenter b w h p.1 p.2) &&
            scanGuard (g p.2 p.1) nd) →
      jeq (g p.2 p.1) nd = false) ∧
    (∀ (g : ℤ × ℤ → JsNum) (nd : JsNum) (b : GeoBounds) (w h : ℕ)
        (wards : List FFWard) (res : List FFResult),
      processFF g nd b w h wards = some res →
      ∀ r ∈ res, ∀ p ∈ r.pops, jeq (g p) nd = false) := by
  refine ⟨?_, ?_, ?_⟩
  · intro depth nd heq
    unfold scanGuard
    rw [heq]
    simp
  · intro g b w h nd ways p hp
    have := (List.mem_filter.mp hp).2
    rw [Bool.and_eq_true] at this
    have hguard := this.2
    unfold scanGuard at hguard
    rcases heq : jeq (g p.2 p.1) nd with _ | _
    · rfl
    · rw [heq] at hguard
      simp at hguard
  · intro g nd b w h wards res hrun r hr p hp
    have hvalid := (processFF_light g nd b w h wards (fun _ => 0) [] res
      (by intro r hr; exact absurd hr (List.not_mem_nil r)) hrun r hr).2 p hp
    unfold ffValid at hvalid
    rw [Bool.and_eq_true] at hvalid
    have := hvalid.1
    rcases heq : jeq (g p) nd with _ | _
    · rfl
    · rw [heq] at this
      simp at this

/-- C3 amended, witness: the sentinel guard facts instantiated at the
sentinel value itself, and the flood-fill part at the concrete two-pixel
run. -/
theorem C3_amended_witness :
    scanGuard (.fin (-9999)) (.fin (-9999)) = false ∧
    (∀ r ∈ [(⟨1, .fin 4, [(0, 0), (1, 0)]⟩ : FFResult)], ∀ p ∈ r.pops,
      jeq ((fun _ => JsNum.fin 2) p) (.fin (-9999)) = false) :=
  ⟨C3_amended.1 (.fin (-9999)) (.fin (-9999)) (by decide),
   C3_amended.2.2 (fun _ => JsNum.fin 2) (.fin (-9999)) ⟨1, 0, 2, 0⟩ 2 1
      [⟨1, [(1 / 2, 1 / 2)]⟩] [⟨1, .fin 4, [(0, 0), (1, 0)]⟩] processFF_fixture2⟩

/-- C4: counterexample.  The raster-load range computation does not exclude
exact-zero cells: on the two-cell data zero and three with no sentinel, the
load-time range has minimum zero — the zero cell — whereas the
zero-excluding computation of the stats helper yields minimum three. -/
theorem C4_counterexample :
    readFloodRange none [.fin 0, .fin 3] = (.fin 0, .fin 3) ∧
    tifStatsRange none [.fin 0, .fin 3] = (.fin 3, .fin 3) ∧
    JsNum.fin 0 ≠ JsNum.fin 3 := by
  refine ⟨by decide, by decide, by decide⟩

/-- C4 amended: the stats-helper range excludes exact-zero cells (appending
a zero cell never changes it) while the load-time range does not; both
ranges always satisfy min below-or-equal max, and both default to zero and
five when no cell passes their filter. -/
theorem C4_amended :
    (∀ (nd : Option JsNum) (data : List JsNum),
      jle (readFloodRange nd data).1 (readFloodRange nd data).2 = true) ∧
    (∀ (nd : Option JsNum) (data : List JsNum),
      jle (tifStatsRange nd data).1 (tifStatsRange nd data).2 = true) ∧
    (∀ (nd : Option JsNum) (data : List JsNum),
      data.filter (statsValid nd) = [] →
      readFloodRange nd data = (.fin 0, .fin 5)) ∧
    (∀ (nd : Option JsNum) (data : List JsNum),
      data.filter (tifStatsValid nd) = [] →
      tifStatsRange nd data = (.fin 0, .fin 5)) ∧
    (∀ (nd : Option JsNum) (data : List JsNum),
      tifStatsRange nd (data ++ [.fin 0]) = tifStatsRange nd data) := by
  refine ⟨readFloodRange_le, tifStatsRange_le, ?_, ?_, ?_⟩
  · intro nd data hempty
    unfold readFloodRange
    rw [hempty]
    rfl
  · intro nd data hempty
    unfold tifStatsRange
    rw [hempty]
    rfl
  · intro nd data
    unfold tifStatsRange
    rw [List.filter_append]
    have hz : List.filter (tifStatsValid nd) [JsNum.fin 0] = [] := by
      simp [List.filter_cons, tifStatsValid_zero]
    rw [hz, List.append_nil]

/-- C4 amended, witness: the default and zero-invariance parts instantiated
at an all-sentinel one-cell raster and at the two-cell fixture. -/
theorem C4_amended_witness :
    readFloodRange (some (.fin (-9999))) [.fin (-9999)] = (.fin 0, .fin 5) ∧
    tifStatsRange none [] = (.fin 0, .fin 5) :=
  ⟨C4_amended.2.2.1 (some (.fin (-9999))) [.fin (-9999)]
      (by simp [List.filter_cons, statsValid_sentinel]),
   C4_amended.2.2.2.1 none [] (by decide)⟩

/-- C5: code-bug evaluation.  The global statistics query is specified to
return a zeroed result with a message instead of dividing by zero, but on a
raster whose single cell equals the sentinel the collected valid values are
empty and the reported average is zero divided by zero, namely NaN, as is
the bucket percentage. -/
theorem C5_stats_nan_eval :
    (statsValidValues (some (.fin (-9999))) [.fin (-9999)]).length = 0 ∧
    floodStatsAverage (some (.fin (-9999))) [.fin (-9999)] = .nan ∧
    statsPercentage 0 0 = .nan := by
  refine ⟨?_, ?_, ?_⟩
  · simp [statsValidValues, statsValid_sentinel]
  · simp [floodStatsAverage, statsValidValues, statsValid_sentinel, jsumList,
      jsumFrom, jdiv]
  · simp [statsPercentage, jdiv, jmul]

/-- C6: counterexample.  The world-file parser does not reject non-numeric
lines: on a six-line file whose first line is non-numeric (its parseFloat
value is NaN) parsing succeeds and returns NaN in the pixelSizeX field,
contradicting both the required failure and the required absence of NaN. -/
theorem C6_counterexample :
    parseTfw [.nan, .fin 0, .fin 0, .fin 0, .fin 0, .fin 0] =
      some ⟨.nan, .fin 0, .fin 0, .fin 0, .fin 0, .fin 0⟩ := by
  decide

/-- C6 amended: parsing fails exactly when the file has fewer than six
lines; with at least six lines it succeeds and returns the first six
parseFloat values in world-file order, so a non-numeric line yields a NaN
field rather than an error. -/
theorem C6_amended :
    ∀ (lines : List JsNum),
      (parseTfw lines = none ↔ lines.length < 6) ∧
      (6 ≤ lines.length →
        parseTfw lines = some ⟨lines.getD 0 .nan, lines.getD 1 .nan,
          lines.getD 2 .nan, lines.getD 3 .nan, lines.getD 4 .nan,
          lines.getD 5 .nan⟩) := by
  intro lines
  constructor
  · unfold parseTfw
    by_cases hlen : lines.length < 6
    · simp [hlen]
    · simp [hlen]
  · intro hlen
    unfold parseTfw
    rw [if_neg (by omega)]

/-- C6 amended, witness: the success branch instantiated at a concrete
six-line file. -/
theorem C6_amended_witness :
    parseTfw [.fin 1, .fin 0, .fin 0, .fin (-1), .fin 10, .fin 20] =
      some ⟨.fin 1, .fin 0, .fin 0, .fin (-1), .fin 10, .fin 20⟩ :=
  (C6_amended [.fin 1, .fin 0, .fin 0, .fin (-1), .fin 10, .fin 20]).2
    (by decide)

lemma regionRect_fixture :
    regionRect ⟨1, 0, 1, 0⟩ ⟨1, 0, 1, 0⟩ 1 1 = (0, 1, 0, 1) := by
  norm_num [regionRect]

lemma regionScan_fixture_neg :
    regionScan [.fin (-1)] none ⟨1, 0, 1, 0⟩ ⟨1, 0, 1, 0⟩ 1 1 =
      ([.fin (-1)], 1) := by
  simp only [regionScan, regionRect_fixture]
  rfl

lemma regionScan_fixture_pos :
    regionScan [.fin 1] none ⟨1, 0, 1, 0⟩ ⟨1, 0, 1, 0⟩ 1 1 =
      ([.fin 1], 1) := by
  simp only [regionScan, regionRect_fixture]
  rfl

/-- C7: counterexample.  A valid pixel with a negative depth is counted in
validPixels but falls in none of the five buckets: the one-pixel region with
value minus one has one valid pixel and bucket sum zero, so the bucket
counts do not sum to validPixels. -/
theorem C7_counterexample :
    regionScan [.fin (-1)] none ⟨1, 0, 1, 0⟩ ⟨1, 0, 1, 0⟩ 1 1 =
      ([.fin (-1)], 1) ∧
    bucketSum [.fin (-1)] = 0 ∧ (0 : ℕ) ≠ 1 := by
  refine ⟨regionScan_fixture_neg, ?_, by decide⟩
  rw [bucketSum_eq]
  decide

/-- C7 amended: over the values collected by the region scan, the five
bucket counts sum to the number of collected values that are nonnegative
(in the JavaScript ordering, which excludes NaN), hence to validPixels
exactly when every collected value is nonnegative; a negative valid value
falls in no bucket. -/
theorem C7_amended :
    ∀ (data : List JsNum) (nd : Option JsNum) (tif q : GeoBounds) (w h : ℕ),
      bucketSum (regionScan data nd tif q w h).1 =
        ((regionScan data nd tif q w h).1.filter
          (fun v => jge v (.fin 0))).length ∧
      ((∀ v ∈ (regionScan data nd tif q w h).1, jge v (.fin 0) = true) →
        bucketSum (regionScan data nd tif q w h).1 =
          (regionScan data nd tif q w h).1.length) := by
  intro data nd tif q w h
  refine ⟨bucketSum_eq _, ?_⟩
  intro hall
  rw [bucketSum_eq, List.filter_eq_self.mpr hall]

/-- C7 amended, witness: the all-nonnegative case instantiated at the
one-pixel region of depth one, where the bucket sum equals validPixels. -/
theorem C7_amended_witness :
    bucketSum (regionScan [.fin 1] none ⟨1, 0, 1, 0⟩ ⟨1, 0, 1, 0⟩ 1 1).1 =
      (regionScan [.fin 1] none ⟨1, 0, 1, 0⟩ ⟨1, 0, 1, 0⟩ 1 1).1.length :=
  (C7_amended [.fin 1] none ⟨1, 0, 1, 0⟩ ⟨1, 0, 1, 0⟩ 1 1).2
    (by rw [regionScan_fixture_pos]; decide)

/-- C8: the bounds calculation shifts the pixel-center origin by half a
pixel to the outer edges (west and north), steps by the image dimensions
times the pixel sizes to the opposite corner (east and south), reprojects
the two corners, and returns the componentwise max and min of the corner
latitudes and longitudes; consequently south never exceeds north and west
never exceeds east. -/
theorem C8_bounds_formula :
    ∀ (t : TfwQ) (iw ihh : ℕ) (T : ℚ × ℚ → ℚ × ℚ),
      calcBoundsCore t iw ihh T =
        { north := max (T (t.upperLeftX - t.pixelSizeX / 2,
              t.upperLeftY - t.pixelSizeY / 2)).2
            (T (t.upperLeftX - t.pixelSizeX / 2 + (iw : ℚ) * t.pixelSizeX,
              t.upperLeftY - t.pixelSizeY / 2 + (ihh : ℚ) * t.pixelSizeY)).2,
          south := min (T (t.upperLeftX - t.pixelSizeX / 2,
              t.upperLeftY - t.pixelSizeY / 2)).2
            (T (t.upperLeftX - t.pixelSizeX / 2 + (iw : ℚ) * t.pixelSizeX,
              t.upperLeftY - t.pixelSizeY / 2 + (ihh : ℚ) * t.pixelSizeY)).2,
          east := max (T (t.upperLeftX - t.pixelSizeX / 2,
              t.upperLeftY - t.pixelSizeY / 2)).1
            (T (t.upperLeftX - t.pixelSizeX / 2 + (iw : ℚ) * t.pixelSizeX,
              t.upperLeftY - t.pixelSizeY / 2 + (ihh : ℚ) * t.pixelSizeY)).1,
          west := min (T (t.upperLeftX - t.pixelSizeX / 2,
              t.upperLeftY - t.pixelSizeY / 2)).1
            (T (t.upperLeftX - t.pixelSizeX / 2 + (iw : ℚ) * t.pixelSizeX,
              t.upperLeftY - t.pixelSizeY / 2 + (ihh : ℚ) * t.pixelSizeY)).1 } ∧
      (calcBoundsCore t iw ihh T).south ≤ (calcBoundsCore t iw ihh T).north ∧
      (calcBoundsCore t iw ihh T).west ≤ (calcBoundsCore t iw ihh T).east := by
  intro t iw ihh T
  exact ⟨rfl, min_le_max, min_le_max⟩

/-- C9: in the heatmap pixel cascade a missing value, a value within the
epsilon of the sentinel, a non-finite value, and an exact zero are painted
fully transparent (alpha zero), and every other value receives the ramp
color at alpha one hundred eighty. -/
theorem C9_heatmap_alpha :
    ∀ (nd : Option JsNum) (ramp : JsNum → ℕ × ℕ × ℕ) (val : JsNum),
      heatPixel none nd ramp = (0, 0, 0, 0) ∧
      ((nearNoData nd val || !jsFinite val || jeq val (.fin 0)) = true →
        heatPixel (some val) nd ramp = (0, 0, 0, 0)) ∧
      ((nearNoData nd val || !jsFinite val || jeq val (.fin 0)) = false →
        heatPixel (some val) nd ramp =
          ((ramp val).1, (ramp val).2.1, (ramp val).2.2, 180)) := by
  intro nd ramp val
  refine ⟨rfl, ?_, ?_⟩
  · intro hbad
    unfold heatPixel
    cases h1 : nearNoData nd val with
    | true => simp [h1]
    | false =>
        cases h2 : jsFinite val with
        | false => simp [h1, h2]
        | true =>
            have h3 : jeq val (.fin 0) = true := by
              rw [h1, h2] at hbad
              simpa using hbad
            simp [h1, h2, h3]
  · intro hgood
    obtain ⟨⟨h1, h2⟩, h3⟩ :
        (nearNoData nd val = false ∧ (!jsFinite val) = false) ∧
          jeq val (.fin 0) = false := by
      constructor
      · constructor
        · rcases h : nearNoData nd val with _ | _
          · rfl
          · rw [h] at hgood
            simp at hgood
        · rcases h : (!jsFinite val) with _ | _
          · rfl
          · rw [h] at hgood
            simp at hgood
      · rcases h : jeq val (.fin 0) with _ | _
        · rfl
        · rw [h] at hgood
          simp at hgood
    have h2' : jsFinite val = true := by
      rcases h : jsFinite val with _ | _
      · rw [h] at h2
        simp at h2
      · rfl
    unfold heatPixel
    simp [h1, h2', h3]

/-- C9 witness: the cascade at the zero value (transparent) and at depth one
with no sentinel (ramp color at alpha one hundred eighty). -/
theorem C9_heatmap_alpha_witness :
    heatPixel (some (.fin 0)) none (fun _ => (1, 2, 3)) = (0, 0, 0, 0) ∧
    heatPixel (some (.fin 1)) none (fun _ => (1, 2, 3)) = (1, 2, 3, 180) :=
  ⟨(C9_heatmap_alpha none (fun _ => (1, 2, 3)) (.fin 0)).2.1 (by decide),
   (C9_heatmap_alpha none (fun _ => (1, 2, 3)) (.fin 1)).2.2 (by decide)⟩

/-- C10: in the seeded flood-fill, assuming all ward ids are nonzero, every
pixel is claimed in the shared claim grid before it is enqueued and only
unclaimed pixels are ever claimed and enqueued; consequently the
breadth-first loop terminates within the computed fuel budget on every
finite grid (the run returns a result), the pop traces of all wards are
globally duplicate-free (each pixel is dequeued, and its depth accumulated,
at most once in the whole run), and each ward's total is the sum over its
own pop trace, so each pixel's depth is added to at most one ward's
total. -/
theorem C10_floodfill_safety :
    ∀ (g : ℤ × ℤ → JsNum) (nd : JsNum) (b : GeoBounds) (w h : ℕ)
      (wards : List FFWard),
      (∀ wd ∈ wards, wd.wid ≠ 0) →
      ∃ res, processFF g nd b w h wards = some res ∧
        ((res.map FFResult.pops).flatten).Nodup ∧
        (∀ r ∈ res, r.total = jsumList (r.pops.map g)) := by
  intro g nd b w h wards hw
  obtain ⟨res, hrun, hnd, hprop⟩ := processFF_master g nd b w h wards hw
  exact ⟨res, hrun, hnd, fun r hr => (hprop r hr).1⟩

/-- C10 witness: the safety guarantees instantiated at the concrete
two-pixel uniform-depth run with a single ward of id one. -/
theorem C10_floodfill_safety_witness :
    ∃ res, processFF (fun _ => JsNum.fin 2) (.fin (-9999)) ⟨1, 0, 2, 0⟩ 2 1
        [⟨1, [(1 / 2, 1 / 2)]⟩] = some res ∧
      ((res.map FFResult.pops).flatten).Nodup ∧
      (∀ r ∈ res, r.total = jsumList (r.pops.map (fun _ => JsNum.fin 2))) :=
  C10_floodfill_safety (fun _ => JsNum.fin 2) (.fin (-9999)) ⟨1, 0, 2, 0⟩ 2 1
    [⟨1, [(1 / 2, 1 / 2)]⟩] (by decide)

end FloodCore
